import Mathlib

/-!
# Verification of the bencode decoder (`src/bencode.rs`)

Shallow embedding of the bencode decoding engine.  Byte buffers (`&[u8]`)
are modelled as `List Nat` (each element a byte value `< 256` in the inputs
of interest; the decoders themselves only compare bytes against constants,
so no bound is needed in the embedding).  Rust's `Option<Result<..>>`
per-production contract is kept as `Option (PResult ParseError ..)`, where
`PResult` is `Result` extended with a distinguished `panic` outcome:
`parse_byte_string` computes `value_end_idx = value_idx + length` in
`usize`, and when `colon_idx + 1 + length ≥ 2^64` that addition panics in
a debug build and wraps in a release build — where the wrapped value is
`< value_idx ≤ content.len()`, so the range check passes and the slice
`content[value_idx..value_end_idx]` panics on `start > end`.  Either way
the call panics exactly when `colon_idx + 1 + length ≥ 2^64`, which the
embedding reports as `panic`; a panic unwinds through every caller, so all
decoders propagate it.

The mutually recursive dispatcher (`parse_value`) and the `loop`s inside
`parse_list` / `parse_dictionary` are embedded with an explicit fuel
parameter; `none` at the outer `Option` of the fueled functions means the
fuel ran out (a modelling artifact only: `parse_value_fuel_sufficient`
below proves fuel `2 * length + 1` always suffices, which is the formal
statement that the Rust recursion terminates).  The `loop`s of the source
advance an index `parse_len` into `content` and repeatedly slice
`&content[parse_len..]`; the embedding recurses directly on that suffix
slice and returns the number of bytes consumed inside it, which is the
same computation.

`HashMap<String, Node>` is modelled as an association list with at most
one binding per key; `insert` replaces an existing binding in place
(iteration order of the Rust map is unspecified and carries no meaning, so
any canonical order is a faithful model of the mapping).  Dictionary keys
are kept as their UTF-8 byte sequences together with the validity check
the source performs (`str::from_utf8`); valid UTF-8 byte lists are in
bijection with the decoded strings, so the mapping is preserved.

All `parse_<type>` functions of the source index `content[0]` and are
documented to expect non-empty input (their only caller checks emptiness
first); the embedding returns `none` on `[]`, a case no caller exercises.
-/

/-- The closed error taxonomy of `bencode.rs`. -/
inductive ParseError where
  | DataAfterBencode
  | UnexpectedEndOfData
  | InvalidPrefix
  | NonUtf8Integer
  | NonUtf8DictKey
  | InvalidInteger
  | NonByteStringDictKey
deriving DecidableEq, Repr

mutual

/-- `Value` of `bencode.rs`: the tagged union of decoded values. -/
inductive Value where
  | Integer (i : Int)
  | ByteString (bs : List Nat)
  | List (l : List Node)
  | Dictionary (d : List Entry)

/-- `Node` of `bencode.rs`: a decoded value plus the exact byte slice
(`unparsed`) its decoder consumed. -/
inductive Node where
  | mk (value : Value) (unparsed : List Nat)

/-- One binding of the dictionary mapping: key bytes (valid UTF-8) and the
value node. -/
inductive Entry where
  | mk (key : List Nat) (node : Node)

end

def Node.value : Node → Value
  | .mk v _ => v

def Node.unparsed : Node → List Nat
  | .mk _ u => u

def Entry.key : Entry → List Nat
  | .mk k _ => k

def Entry.node : Entry → Node
  | .mk _ nd => nd

/-- Rust's `Result` extended with the distinguished `panic` outcome: a Rust
panic aborts the whole decode and is neither a returned value nor a
`ParseError`.  The only panic site of `bencode.rs` is the unguarded `usize`
addition in `parse_byte_string` (see the module comment); every caller
propagates a panic, as unwinding does. -/
inductive PResult (ε α : Type) where
  | panic
  | error (e : ε)
  | ok (a : α)

/-- `Result::map`, lifted: transforms the `ok` payload only. -/
def PResult.map {ε α β : Type} (f : α → β) : PResult ε α → PResult ε β
  | .panic => .panic
  | .error e => .error e
  | .ok a => .ok (f a)

/-- Lookup in the association-list model of `HashMap<String, Node>`. -/
def dictLookup : List Entry → List Nat → Option Node
  | [], _ => none
  | e :: rest, k => if e.key = k then some e.node else dictLookup rest k

/-- The value node of the *last* pair in `pairs` whose key is `k`, if any
(used to state that `HashMap::insert` makes later occurrences of a
dictionary key overwrite earlier ones). -/
def lastAssoc (k : List Nat) : List (List Nat × Node) → Option Node
  | [] => none
  | p :: rest =>
    match lastAssoc k rest with
    | some nd => some nd
    | none => if p.1 = k then some p.2 else none

/-- Rust `Iterator::position`: index of the first element satisfying `p`. -/
def position (p : Nat → Bool) : List Nat → Option Nat
  | [] => none
  | a :: l => if p a then some 0 else (position p l).map (· + 1)

/-- Value of a big-endian string of ASCII digit bytes. -/
def natOfDigits (l : List Nat) : Nat :=
  l.foldl (fun acc d => acc * 10 + (d - 48)) 0

/-- `b` is an ASCII digit byte. -/
def isDigitByte (b : Nat) : Bool := 48 ≤ b && b ≤ 57

/-- Rust `str::parse::<i64>` on the raw bytes of the string: optional sign,
one or more ASCII digits, checked against the `i64` range.  (Checked
accumulation overflows exactly when the final magnitude is out of range,
since the accumulator grows monotonically; a non-ASCII byte is never a
digit, so working on bytes agrees with working on chars.) -/
def parseI64 (s : List Nat) : Option Int :=
  match s with
  | [] => none
  | c :: rest =>
    let neg := c = 45
    let digits := if c = 43 ∨ c = 45 then rest else s
    if digits = [] then none
    else if digits.all isDigitByte then
      let n := natOfDigits digits
      if neg then
        if n ≤ 2 ^ 63 then some (-(n : Int)) else none
      else
        if n ≤ 2 ^ 63 - 1 then some (n : Int) else none
    else none

/-- Rust `str::parse::<usize>` on the raw bytes (64-bit target): optional
`+`, one or more ASCII digits, checked against the `usize` range. -/
def parseUsize (s : List Nat) : Option Nat :=
  match s with
  | [] => none
  | c :: rest =>
    let digits := if c = 43 then rest else s
    if digits = [] then none
    else if digits.all isDigitByte then
      let n := natOfDigits digits
      if n ≤ 2 ^ 64 - 1 then some n else none
    else none

/-- Rust `str::from_utf8` validity: well-formed UTF-8 per the Unicode
standard (the exact table `core::str` validates against). -/
def utf8Valid : List Nat → Bool
  | [] => true
  | b :: rest =>
    if b < 0x80 then utf8Valid rest
    else
      match rest with
      | [] => false
      | b2 :: rest2 =>
        if 0xC2 ≤ b ∧ b ≤ 0xDF then
          decide (0x80 ≤ b2 ∧ b2 ≤ 0xBF) && utf8Valid rest2
        else
          match rest2 with
          | [] => false
          | b3 :: rest3 =>
            if b = 0xE0 then
              (decide (0xA0 ≤ b2 ∧ b2 ≤ 0xBF) && decide (0x80 ≤ b3 ∧ b3 ≤ 0xBF)) && utf8Valid rest3
            else if (0xE1 ≤ b ∧ b ≤ 0xEC) ∨ b = 0xEE ∨ b = 0xEF then
              (decide (0x80 ≤ b2 ∧ b2 ≤ 0xBF) && decide (0x80 ≤ b3 ∧ b3 ≤ 0xBF)) && utf8Valid rest3
            else if b = 0xED then
              (decide (0x80 ≤ b2 ∧ b2 ≤ 0x9F) && decide (0x80 ≤ b3 ∧ b3 ≤ 0xBF)) && utf8Valid rest3
            else
              match rest3 with
              | [] => false
              | b4 :: rest4 =>
                if b = 0xF0 then
                  (decide (0x90 ≤ b2 ∧ b2 ≤ 0xBF) && decide (0x80 ≤ b3 ∧ b3 ≤ 0xBF) &&
                    decide (0x80 ≤ b4 ∧ b4 ≤ 0xBF)) && utf8Valid rest4
                else if 0xF1 ≤ b ∧ b ≤ 0xF3 then
                  (decide (0x80 ≤ b2 ∧ b2 ≤ 0xBF) && decide (0x80 ≤ b3 ∧ b3 ≤ 0xBF) &&
                    decide (0x80 ≤ b4 ∧ b4 ≤ 0xBF)) && utf8Valid rest4
                else if b = 0xF4 then
                  (decide (0x80 ≤ b2 ∧ b2 ≤ 0x8F) && decide (0x80 ≤ b3 ∧ b3 ≤ 0xBF) &&
                    decide (0x80 ≤ b4 ∧ b4 ≤ 0xBF)) && utf8Valid rest4
                else false

/-- `HashMap::insert` on the association-list model: replace the binding of
`k` if present, else append the new binding. -/
def dictInsert (d : List Entry) (k : List Nat) (nd : Node) : List Entry :=
  match d with
  | [] => [.mk k nd]
  | e :: rest => if e.key = k then .mk k nd :: rest else e :: dictInsert rest k nd

/-- `parse_interger` of `bencode.rs` (name kept, typo included): `i`,
first-`e` search, UTF-8 check, `i64` parse. -/
def parse_interger (c : List Nat) : Option (PResult ParseError (Int × Nat)) :=
  match c with
  | [] => none
  | b :: _ =>
    if b ≠ 105 then none
    else
      match position (· == 101) c with
      | none => some (.error .UnexpectedEndOfData)
      | some e_idx =>
        let int_slice := (c.take e_idx).drop 1
        if utf8Valid int_slice then
          match parseI64 int_slice with
          | none => some (.error .InvalidInteger)
          | some i => some (.ok (i, e_idx + 1))
        else some (.error .NonUtf8Integer)

/-- `parse_byte_string` of `bencode.rs`: the (buggy, as in the source)
leading-digit gate `first_char <= b'0' || first_char >= b'9'`, first-`:`
search (`None` on absence, via `?`), `usize` length parse (`None` on
failure, via `.ok()?`), then the `usize` addition
`value_end_idx = value_idx + length` (lines 184–185), the range check and
the payload copy.  The addition is the source's one panic site: when
`colon_idx + 1 + length ≥ 2^64` a debug build panics on add overflow, and
a release build wraps to a value `< value_idx ≤ content.len()`, so the
range check passes and `content[value_idx..value_end_idx]` panics on
`start > end` — both builds panic exactly on that condition, modelled
here as the `panic` outcome before the in-range cases. -/
def parse_byte_string (c : List Nat) : Option (PResult ParseError (List Nat × Nat)) :=
  match c with
  | [] => none
  | first_char :: _ =>
    if first_char ≤ 48 ∨ 57 ≤ first_char then none
    else
      match position (· == 58) c with
      | none => none
      | some colon_idx =>
        let length_slice := c.take colon_idx
        match (if utf8Valid length_slice then parseUsize length_slice else none) with
        | none => none
        | some length =>
          let value_idx := colon_idx + 1
          let value_end_idx := value_idx + length
          if value_end_idx ≥ 2 ^ 64 then some .panic
          else if value_end_idx > c.length then some (.error .UnexpectedEndOfData)
          else some (.ok ((c.take value_end_idx).drop value_idx, value_end_idx))

/-- The `loop` of `parse_list`, recursing on the suffix after the consumed
bytes; `pv` is the dispatcher at the enclosing fuel, `g` the loop fuel.
Returns the decoded elements and the bytes consumed inside the suffix
(including the closing `e`). -/
def loopFAux (pv : List Nat → Option (PResult ParseError (Value × Nat))) :
    Nat → List Nat → Option (PResult ParseError (List Node × Nat))
  | 0, _ => none
  | g + 1, s =>
    match s with
    | [] => some (.error .UnexpectedEndOfData)
    | b :: _ =>
      if b = 101 then some (.ok ([], 1))
      else
        match pv s with
        | none => none
        | some .panic => some .panic
        | some (.error e) => some (.error e)
        | some (.ok (v, n)) =>
          match loopFAux pv g (s.drop n) with
          | none => none
          | some .panic => some .panic
          | some (.error e) => some (.error e)
          | some (.ok (nds, m)) => some (.ok (.mk v (s.take n) :: nds, n + m))

/-- The `loop` of `parse_dictionary`: byte-string key (with the
`NonByteStringDictKey` / `NonUtf8DictKey` refinements of the source), value
via the dispatcher, insertion into the accumulated map. -/
def loopDAux (pv : List Nat → Option (PResult ParseError (Value × Nat))) :
    Nat → List Entry → List Nat → Option (PResult ParseError (List Entry × Nat))
  | 0, _, _ => none
  | g + 1, dict, s =>
    match s with
    | [] => some (.error .UnexpectedEndOfData)
    | b :: _ =>
      if b = 101 then some (.ok (dict, 1))
      else
        match parse_byte_string s with
        | none => some (.error .NonByteStringDictKey)
        | some .panic => some .panic
        | some (.error e) => some (.error e)
        | some (.ok (key_byte_str, kn)) =>
          if utf8Valid key_byte_str then
            match pv (s.drop kn) with
            | none => none
            | some .panic => some .panic
            | some (.error e) => some (.error e)
            | some (.ok (v, vn)) =>
              match loopDAux pv g
                  (dictInsert dict key_byte_str (.mk v ((s.drop kn).take vn)))
                  (s.drop (kn + vn)) with
              | none => none
              | some .panic => some .panic
              | some (.error e) => some (.error e)
              | some (.ok (d, m)) => some (.ok (d, kn + vn + m))
          else some (.error .NonUtf8DictKey)

/-- The `loop` of `parse_dictionary` once more, this time returning the
`(key, value-node)` pairs it decodes, in decode order, instead of the
accumulated map.  This is the specification-side companion of `loopDAux`
for the last-write-wins claim: `loopDAux_pairs` proves the map the loop
returns is exactly the left fold of the overwriting `dictInsert` over
these pairs. -/
def loopDPairs (pv : List Nat → Option (PResult ParseError (Value × Nat))) :
    Nat → List Nat → Option (PResult ParseError (List (List Nat × Node) × Nat))
  | 0, _ => none
  | g + 1, s =>
    match s with
    | [] => some (.error .UnexpectedEndOfData)
    | b :: _ =>
      if b = 101 then some (.ok ([], 1))
      else
        match parse_byte_string s with
        | none => some (.error .NonByteStringDictKey)
        | some .panic => some .panic
        | some (.error e) => some (.error e)
        | some (.ok (key_byte_str, kn)) =>
          if utf8Valid key_byte_str then
            match pv (s.drop kn) with
            | none => none
            | some .panic => some .panic
            | some (.error e) => some (.error e)
            | some (.ok (v, vn)) =>
              match loopDPairs pv g (s.drop (kn + vn)) with
              | none => none
              | some .panic => some .panic
              | some (.error e) => some (.error e)
              | some (.ok (ps, m)) =>
                some (.ok ((key_byte_str, Node.mk v ((s.drop kn).take vn)) :: ps,
                  kn + vn + m))
          else some (.error .NonUtf8DictKey)

/-- `parse_list` of `bencode.rs`, with the dispatcher abstracted as `pv`:
`some none` is Rust's `None` (not applicable), `none` is fuel exhaustion. -/
def parse_listA (pv : List Nat → Option (PResult ParseError (Value × Nat)))
    (g : Nat) (c : List Nat) : Option (Option (PResult ParseError (List Node × Nat))) :=
  match c with
  | [] => some none
  | b :: rest =>
    if b ≠ 108 then some none
    else
      match loopFAux pv g rest with
      | none => none
      | some .panic => some (some .panic)
      | some (.error e) => some (some (.error e))
      | some (.ok (nds, m)) => some (some (.ok (nds, m + 1)))

/-- `parse_dictionary` of `bencode.rs`, with the dispatcher abstracted. -/
def parse_dictionaryA (pv : List Nat → Option (PResult ParseError (Value × Nat)))
    (g : Nat) (c : List Nat) : Option (Option (PResult ParseError (List Entry × Nat))) :=
  match c with
  | [] => some none
  | b :: rest =>
    if b ≠ 100 then some none
    else
      match loopDAux pv g [] rest with
      | none => none
      | some .panic => some (some .panic)
      | some (.error e) => some (some (.error e))
      | some (.ok (d, m)) => some (some (.ok (d, m + 1)))

/-- `parse_value` of `bencode.rs` at fuel `f`: empty check, then the
`.or`-chain over the four productions (first applicable decoder wins,
`InvalidPrefix` if none applies).  `none` means the fuel ran out. -/
def parse_valueF : Nat → List Nat → Option (PResult ParseError (Value × Nat))
  | 0, _ => none
  | f + 1, c =>
    if c = [] then some (.error .UnexpectedEndOfData)
    else
      match parse_interger c with
      | some r => some (r.map fun p => (Value.Integer p.1, p.2))
      | none =>
        match parse_byte_string c with
        | some r => some (r.map fun p => (Value.ByteString p.1, p.2))
        | none =>
          match parse_listA (parse_valueF f) f c with
          | none => none
          | some (some r) => some (r.map fun p => (Value.List p.1, p.2))
          | some none =>
            match parse_dictionaryA (parse_valueF f) f c with
            | none => none
            | some (some r) => some (r.map fun p => (Value.Dictionary p.1, p.2))
            | some none => some (.error .InvalidPrefix)

/-- `parse_value` at the canonical, always-sufficient fuel. -/
def parse_value (c : List Nat) : PResult ParseError (Value × Nat) :=
  (parse_valueF (2 * c.length + 1) c).getD (.error .UnexpectedEndOfData)

/-- `parse` of `bencode.rs`: one value from offset 0, then the trailing-data
check. -/
def parse (c : List Nat) : PResult ParseError Node :=
  match parse_value c with
  | .panic => .panic
  | .error e => .error e
  | .ok (v, parse_len) =>
    if parse_len = c.length then .ok (.mk v c) else .error .DataAfterBencode

/-! ## Helper lemmas about `position` and list slicing -/

theorem position_some_lt {p : Nat → Bool} {l : List Nat} {k : Nat}
    (h : position p l = some k) : k < l.length := by
  induction l generalizing k with
  | nil => simp [position] at h
  | cons a l ih =>
    by_cases hp : p a
    · simp [position, hp] at h
      simp only [List.length_cons]
      omega
    · simp [position, hp] at h
      obtain ⟨k', hk', rfl⟩ := h
      have := ih hk'
      simp only [List.length_cons]
      omega

theorem position_eq_none {p : Nat → Bool} {l : List Nat}
    (h : ∀ x ∈ l, p x = false) : position p l = none := by
  induction l with
  | nil => rfl
  | cons a l ih =>
    have ha := h a (by simp)
    simp [position, ha]
    exact ih fun x hx => h x (by simp [hx])

theorem position_take_congr {p : Nat → Bool} {l : List Nat} {k : Nat}
    (h : position p l = some k) :
    ∀ {t : List Nat}, l.take (k + 1) <+: t → position p t = some k := by
  induction l generalizing k with
  | nil => simp [position] at h
  | cons a l ih =>
    intro t hpre
    by_cases hp : p a
    · simp [position, hp] at h
      subst h
      obtain ⟨tail, htail⟩ := hpre
      simp at htail
      subst htail
      simp [position, hp]
    · simp [position, hp] at h
      obtain ⟨k', hk', rfl⟩ := h
      obtain ⟨tail, htail⟩ := hpre
      simp at htail
      subst htail
      have := ih hk' (t := l.take (k' + 1) ++ tail) ⟨tail, rfl⟩
      simp [position, hp, this]

theorem position_append {p : Nat → Bool} {l r : List Nat} {a : Nat}
    (h : ∀ x ∈ l, p x = false) (ha : p a = true) :
    position p (l ++ a :: r) = some l.length := by
  induction l with
  | nil => simp [position, ha]
  | cons b l ih =>
    have hb := h b (by simp)
    have := ih fun x hx => h x (by simp [hx])
    simp [position, hb, this]

theorem take_eq_of_take_prefix {c t : List Nat} {n k : Nat}
    (hn : n ≤ c.length) (hk : k ≤ n) (h : c.take n <+: t) : t.take k = c.take k := by
  obtain ⟨tail, rfl⟩ := h
  rw [List.take_append_of_le_length (by simp; omega), List.take_take,
    Nat.min_eq_left hk]

theorem le_length_of_take_prefix {c t : List Nat} {n : Nat}
    (hn : n ≤ c.length) (h : c.take n <+: t) : n ≤ t.length := by
  have h1 := h.length_le
  rw [List.length_take, inf_eq_left.mpr hn] at h1
  exact h1

theorem head_eq_of_take_prefix {c t : List Nat} {n : Nat} {b : Nat} {rest : List Nat}
    (hc : c = b :: rest) (hn : 1 ≤ n) (h : c.take n <+: t) :
    ∃ trest, t = b :: trest := by
  subst hc
  obtain ⟨tail, htail⟩ := h
  match n, hn with
  | n + 1, _ =>
    simp at htail
    exact ⟨_, htail.symm⟩

theorem prefix_head_eq {tb b : Nat} {trest srest : List Nat}
    (h : (tb :: trest) <+: (b :: srest)) : tb = b := by
  obtain ⟨tail, htail⟩ := h
  injection htail

theorem prefix_cons_cons {a b : Nat} {t s : List Nat}
    (h : (a :: t) <+: (b :: s)) : t <+: s := by
  obtain ⟨tail, htail⟩ := h
  injection htail with _ h2
  exact ⟨tail, h2⟩

theorem prefix_take_eq {t s : List Nat} (h : t <+: s) {k : Nat} (hk : k ≤ t.length) :
    t.take k = s.take k := by
  obtain ⟨tail, rfl⟩ := h
  rw [List.take_append_of_le_length hk]

theorem prefix_drop {t s : List Nat} (h : t <+: s) (a : Nat) :
    t.drop a <+: s.drop a := by
  obtain ⟨tail, rfl⟩ := h
  by_cases ha : a ≤ t.length
  · rw [List.drop_append_of_le_length ha]
    exact ⟨tail, rfl⟩
  · rw [List.drop_eq_nil_of_le (by omega)]
    exact ⟨_, rfl⟩

theorem take_isPrefix_self (l : List Nat) (k : Nat) : l.take k <+: l :=
  ⟨l.drop k, List.take_append_drop k l⟩

theorem position_lt_false {p : Nat → Bool} {l : List Nat} {k : Nat}
    (h : position p l = some k) : ∀ x ∈ l.take k, p x = false := by
  induction l generalizing k with
  | nil => simp [position] at h
  | cons a l ih =>
    by_cases hp : p a
    · simp [position, hp] at h
      subst h
      simp
    · simp [position, hp] at h
      obtain ⟨k', hk', rfl⟩ := h
      intro x hx
      rw [List.take_succ_cons] at hx
      rcases List.mem_cons.mp hx with rfl | hx2
      · simpa using hp
      · exact ih hk' x hx2

theorem position_prefix_eq {p : Nat → Bool} {s t : List Nat} {k k' : Nat}
    (hs : position p s = some k) (hpre : t <+: s) (ht : position p t = some k') :
    k' = k := by
  by_cases hlt : k < t.length
  · have h2 : position p t = some k := by
      refine position_take_congr hs ?_
      rw [← prefix_take_eq hpre (show k + 1 ≤ t.length by omega)]
      exact take_isPrefix_self t (k + 1)
    rw [ht] at h2
    injection h2
  · exfalso
    have hts : t = s.take t.length := by
      rw [← prefix_take_eq hpre le_rfl, List.take_length]
    have hnone : position p t = none := by
      refine position_eq_none ?_
      intro x hx
      refine position_lt_false hs x ?_
      have h4 : t <+: s.take k := by
        rw [hts]
        exact List.take_prefix_take_left _ (by omega)
      exact h4.subset hx
    rw [ht] at hnone
    exact Option.noConfusion hnone

/-! ## Bounds and prefix-stability of the leaf decoders -/

theorem parse_interger_elim {c : List Nat} {i : Int} {n : Nat}
    (h : parse_interger c = some (.ok (i, n))) :
    ∃ b rest e_idx,
      c = b :: rest ∧ b = 105 ∧
      position (fun x => x == 101) c = some e_idx ∧
      utf8Valid ((c.take e_idx).drop 1) = true ∧
      parseI64 ((c.take e_idx).drop 1) = some i ∧
      n = e_idx + 1 := by
  match c with
  | [] => simp [parse_interger] at h
  | b :: rest =>
    by_cases hb : b = 105
    · rcases hpos : position (fun x => x == 101) (b :: rest) with _ | e_idx
      · simp only [parse_interger, hpos] at h
        rw [if_neg (show ¬(b ≠ 105) from by simp [hb])] at h
        simp at h
      · simp only [parse_interger, hpos] at h
        rw [if_neg (show ¬(b ≠ 105) from by simp [hb])] at h
        by_cases hval : utf8Valid (((b :: rest).take e_idx).drop 1) = true
        · rw [if_pos hval] at h
          rcases hpi : parseI64 (((b :: rest).take e_idx).drop 1) with _ | j
          · rw [hpi] at h
            simp at h
          · rw [hpi] at h
            simp at h
            exact ⟨b, rest, e_idx, rfl, hb, rfl, hval, by rw [hpi, h.1], h.2.symm⟩
        · rw [if_neg hval] at h
          simp at h
    · simp [parse_interger, hb] at h

theorem parse_interger_bounds {c : List Nat} {i : Int} {n : Nat}
    (h : parse_interger c = some (.ok (i, n))) : 1 ≤ n ∧ n ≤ c.length := by
  obtain ⟨b, rest, e_idx, rfl, hb, hpos, hval, hpi, rfl⟩ := parse_interger_elim h
  have := position_some_lt hpos
  omega

theorem parse_byte_string_elim {c : List Nat} {bs : List Nat} {n : Nat}
    (h : parse_byte_string c = some (.ok (bs, n))) :
    ∃ b rest colon_idx length,
      c = b :: rest ∧ ¬(b ≤ 48 ∨ 57 ≤ b) ∧
      position (fun x => x == 58) c = some colon_idx ∧
      (if utf8Valid (c.take colon_idx) then parseUsize (c.take colon_idx) else none)
        = some length ∧
      colon_idx + 1 + length < 2 ^ 64 ∧
      n = colon_idx + 1 + length ∧ n ≤ c.length ∧
      bs = (c.take n).drop (colon_idx + 1) := by
  match c with
  | [] => simp [parse_byte_string] at h
  | b :: rest =>
    by_cases hgate : b ≤ 48 ∨ 57 ≤ b
    · simp [parse_byte_string, hgate] at h
    · rcases hpos : position (fun x => x == 58) (b :: rest) with _ | colon_idx
      · simp only [parse_byte_string, hpos] at h
        rw [if_neg hgate] at h
        simp at h
      · simp only [parse_byte_string, hpos] at h
        rw [if_neg hgate] at h
        rcases hlen : (if utf8Valid ((b :: rest).take colon_idx)
            then parseUsize ((b :: rest).take colon_idx) else none) with _ | length
        · simp only [hlen] at h
          simp at h
        · simp only [hlen] at h
          by_cases hover : colon_idx + 1 + length ≥ 2 ^ 64
          · rw [if_pos hover] at h
            simp at h
          · rw [if_neg hover] at h
            by_cases hrange : colon_idx + 1 + length > (b :: rest).length
            · rw [if_pos hrange] at h
              simp at h
            · rw [if_neg hrange] at h
              simp at h
              exact ⟨b, rest, colon_idx, length, rfl, hgate, rfl, hlen, by omega,
                h.2.symm, by omega, by rw [← h.2]; exact h.1.symm⟩

theorem parse_byte_string_bounds {c : List Nat} {bs : List Nat} {n : Nat}
    (h : parse_byte_string c = some (.ok (bs, n))) : 1 ≤ n ∧ n ≤ c.length := by
  obtain ⟨b, rest, colon_idx, length, rfl, hgate, hpos, hlen, hover, rfl, hle, hbs⟩ :=
    parse_byte_string_elim h
  exact ⟨by omega, hle⟩

theorem parse_interger_take {c : List Nat} {i : Int} {n : Nat}
    (h : parse_interger c = some (.ok (i, n))) :
    ∀ t, c.take n <+: t → parse_interger t = some (.ok (i, n)) := by
  obtain ⟨b, rest, e_idx, rfl, hb, hpos, hval, hpi, rfl⟩ := parse_interger_elim h
  subst hb
  intro t hpre
  have helt := position_some_lt hpos
  obtain ⟨trest, rfl⟩ := head_eq_of_take_prefix rfl (by omega) hpre
  have hposl : position (fun x => x == 101) (105 :: trest) = some e_idx :=
    position_take_congr hpos hpre
  have htake : (105 :: trest).take e_idx = (105 :: rest).take e_idx :=
    take_eq_of_take_prefix (by omega) (by omega) hpre
  simp only [parse_interger, hposl, htake, hval, hpi]
  simp

theorem parse_byte_string_take {c : List Nat} {bs : List Nat} {n : Nat}
    (h : parse_byte_string c = some (.ok (bs, n))) :
    ∀ t, c.take n <+: t → parse_byte_string t = some (.ok (bs, n)) := by
  obtain ⟨b, rest, colon_idx, length, rfl, hgate, hpos, hlen, hover, hn, hle, hbs⟩ :=
    parse_byte_string_elim h
  subst hn
  intro t hpre
  obtain ⟨trest, rfl⟩ := head_eq_of_take_prefix rfl (by omega) hpre
  have hposl : position (fun x => x == 58) (b :: trest) = some colon_idx := by
    refine position_take_congr hpos ?_
    exact List.IsPrefix.trans (List.take_prefix_take_left _ (by omega)) hpre
  have htakec : (b :: trest).take colon_idx = (b :: rest).take colon_idx :=
    take_eq_of_take_prefix hle (by omega) hpre
  have htaken : (b :: trest).take (colon_idx + 1 + length)
      = (b :: rest).take (colon_idx + 1 + length) :=
    take_eq_of_take_prefix hle le_rfl hpre
  have hlent := le_length_of_take_prefix hle hpre
  simp only [parse_byte_string, hposl, htakec, hlen]
  rw [if_neg hgate, if_neg (show ¬(colon_idx + 1 + length ≥ 2 ^ 64) by omega),
    if_neg (by omega)]
  rw [htaken, ← hbs]

/-- `parse_interger` has no panic site: it never reports `panic`. -/
theorem parse_interger_no_panic (c : List Nat) : parse_interger c ≠ some .panic := by
  intro h
  match c with
  | [] => simp [parse_interger] at h
  | b :: rest =>
    by_cases hb : b ≠ 105
    · simp [parse_interger, hb] at h
    · rcases hpos : position (fun x => x == 101) (b :: rest) with _ | e_idx
      · simp only [parse_interger, hpos] at h
        rw [if_neg hb] at h
        simp at h
      · simp only [parse_interger, hpos] at h
        rw [if_neg hb] at h
        by_cases hval : utf8Valid (((b :: rest).take e_idx).drop 1) = true
        · rw [if_pos hval] at h
          rcases hpi : parseI64 (((b :: rest).take e_idx).drop 1) with _ | j
          · rw [hpi] at h
            simp at h
          · rw [hpi] at h
            simp at h
        · rw [if_neg hval] at h
          simp at h

/-- No prefix of a slice on which `parse_byte_string` succeeds can reach
the `usize`-overflow panic: a prefix either loses the `:` (not
applicable) or sees the same length literal, whose end index fit in the
original slice and hence in `usize`. -/
theorem parse_byte_string_no_panic {s bs : List Nat} {n : Nat}
    (h : parse_byte_string s = some (.ok (bs, n))) :
    ∀ t, t <+: s → parse_byte_string t ≠ some .panic := by
  obtain ⟨b, rest, colon_idx, length, rfl, hgate, hpos, hlen, hover, hn, hle, hbs⟩ :=
    parse_byte_string_elim h
  intro t hpre hcontra
  match t with
  | [] => simp [parse_byte_string] at hcontra
  | tb :: trest =>
    have htb : tb = b := prefix_head_eq hpre
    subst htb
    rcases hpt : position (fun x => x == 58) (tb :: trest) with _ | cc
    · simp only [parse_byte_string, hpt] at hcontra
      rw [if_neg hgate] at hcontra
      simp at hcontra
    · have hcc : cc = colon_idx := position_prefix_eq hpos hpre hpt
      subst hcc
      have hcclen := position_some_lt hpt
      have htk : (tb :: trest).take cc = (tb :: rest).take cc :=
        prefix_take_eq hpre (by omega)
      simp only [parse_byte_string, hpt, htk, hlen] at hcontra
      rw [if_neg hgate] at hcontra
      rw [if_neg (show ¬(cc + 1 + length ≥ 2 ^ 64) from by omega)] at hcontra
      by_cases hrange : cc + 1 + length > (tb :: trest).length
      · rw [if_pos hrange] at hcontra
        simp at hcontra
      · rw [if_neg hrange] at hcontra
        simp at hcontra

/-! ## Structural elimination for the fueled loops and dispatcher -/

theorem loopFAux_ok_elim {pv : List Nat → Option (PResult ParseError (Value × Nat))}
    {g : Nat} {s : List Nat} {nds : List Node} {m : Nat}
    (h : loopFAux pv (g + 1) s = some (.ok (nds, m))) :
    (∃ b srest, s = b :: srest ∧ b = 101 ∧ nds = [] ∧ m = 1) ∨
    (∃ b srest v n nds' m', s = b :: srest ∧ b ≠ 101 ∧
      pv s = some (.ok (v, n)) ∧
      loopFAux pv g (s.drop n) = some (.ok (nds', m')) ∧
      nds = .mk v (s.take n) :: nds' ∧ m = n + m') := by
  match s with
  | [] => simp [loopFAux] at h
  | b :: srest =>
    by_cases hb : b = 101
    · simp only [loopFAux] at h
      rw [if_pos hb] at h
      simp at h
      exact Or.inl ⟨b, srest, rfl, hb, h.1, h.2.symm⟩
    · simp only [loopFAux] at h
      rw [if_neg hb] at h
      rcases hpv : pv (b :: srest) with _ | r
      · rw [hpv] at h; simp at h
      · rcases r with _ | e | ⟨v, n⟩
        · simp only [hpv] at h; simp at h
        · simp only [hpv] at h; simp at h
        · simp only [hpv] at h
          rcases hrec : loopFAux pv g ((b :: srest).drop n) with _ | r'
          · rw [hrec] at h; simp at h
          · rcases r' with _ | e | ⟨nds', m'⟩
            · simp only [hrec] at h; simp at h
            · simp only [hrec] at h; simp at h
            · simp only [hrec] at h
              simp at h
              exact Or.inr ⟨b, srest, v, n, nds', m', rfl, hb, rfl, hrec,
                h.1.symm, h.2.symm⟩

theorem loopDAux_ok_elim {pv : List Nat → Option (PResult ParseError (Value × Nat))}
    {g : Nat} {dict : List Entry} {s : List Nat} {d : List Entry} {m : Nat}
    (h : loopDAux pv (g + 1) dict s = some (.ok (d, m))) :
    (∃ b srest, s = b :: srest ∧ b = 101 ∧ d = dict ∧ m = 1) ∨
    (∃ b srest key kn v vn m', s = b :: srest ∧ b ≠ 101 ∧
      parse_byte_string s = some (.ok (key, kn)) ∧ utf8Valid key = true ∧
      pv (s.drop kn) = some (.ok (v, vn)) ∧
      loopDAux pv g (dictInsert dict key (.mk v ((s.drop kn).take vn)))
        (s.drop (kn + vn)) = some (.ok (d, m')) ∧
      m = kn + vn + m') := by
  match s with
  | [] => simp [loopDAux] at h
  | b :: srest =>
    by_cases hb : b = 101
    · simp only [loopDAux] at h
      rw [if_pos hb] at h
      simp at h
      exact Or.inl ⟨b, srest, rfl, hb, h.1.symm, h.2.symm⟩
    · simp only [loopDAux] at h
      rw [if_neg hb] at h
      rcases hkey : parse_byte_string (b :: srest) with _ | rk
      · rw [hkey] at h; simp at h
      · rcases rk with _ | e | ⟨key, kn⟩
        · simp only [hkey] at h; simp at h
        · simp only [hkey] at h; simp at h
        · simp only [hkey] at h
          by_cases hutf : utf8Valid key = true
          · rw [if_pos hutf] at h
            rcases hpv : pv ((b :: srest).drop kn) with _ | rv
            · rw [hpv] at h; simp at h
            · rcases rv with _ | e | ⟨v, vn⟩
              · simp only [hpv] at h; simp at h
              · simp only [hpv] at h; simp at h
              · simp only [hpv] at h
                rcases hrec : loopDAux pv g
                    (dictInsert dict key (.mk v (((b :: srest).drop kn).take vn)))
                    ((b :: srest).drop (kn + vn)) with _ | rr
                · rw [hrec] at h; simp at h
                · rcases rr with _ | e | ⟨d', m'⟩
                  · simp only [hrec] at h; simp at h
                  · simp only [hrec] at h; simp at h
                  · simp only [hrec] at h
                    simp at h
                    refine Or.inr ⟨b, srest, key, kn, v, vn, m', rfl, hb, rfl,
                      hutf, hpv, ?_, h.2.symm⟩
                    rw [← h.1]
                    exact hrec
          · rw [if_neg hutf] at h
            simp at h

theorem parse_valueF_ok_elim {f : Nat} {c : List Nat} {v : Value} {n : Nat}
    (h : parse_valueF (f + 1) c = some (.ok (v, n))) :
    ∃ b rest, c = b :: rest ∧
    ((∃ i, parse_interger c = some (.ok (i, n)) ∧ v = .Integer i) ∨
     (parse_interger c = none ∧
       ∃ bs, parse_byte_string c = some (.ok (bs, n)) ∧ v = .ByteString bs) ∨
     (parse_interger c = none ∧ parse_byte_string c = none ∧ b = 108 ∧
       ∃ nds m, loopFAux (parse_valueF f) f rest = some (.ok (nds, m)) ∧
         v = .List nds ∧ n = m + 1) ∨
     (parse_interger c = none ∧ parse_byte_string c = none ∧ b ≠ 108 ∧ b = 100 ∧
       ∃ d m, loopDAux (parse_valueF f) f [] rest = some (.ok (d, m)) ∧
         v = .Dictionary d ∧ n = m + 1)) := by
  match c with
  | [] => simp [parse_valueF] at h
  | b :: rest =>
    refine ⟨b, rest, rfl, ?_⟩
    simp only [parse_valueF] at h
    rw [if_neg (by simp)] at h
    rcases hint : parse_interger (b :: rest) with _ | ri
    · rw [hint] at h
      rcases hbs : parse_byte_string (b :: rest) with _ | rb
      · rw [hbs] at h
        by_cases hl : b = 108
        · simp only [parse_listA] at h
          rw [if_neg (by simp [hl])] at h
          rcases hloop : loopFAux (parse_valueF f) f rest with _ | rl
          · rw [hloop] at h; simp at h
          · rcases rl with _ | e | ⟨nds, m⟩
            · simp only [hloop] at h; simp [PResult.map] at h
            · simp only [hloop] at h; simp [PResult.map] at h
            · simp only [hloop] at h
              simp [PResult.map] at h
              exact Or.inr (Or.inr (Or.inl ⟨rfl, rfl, hl, nds, m, rfl,
                h.1.symm, h.2.symm⟩))
        · simp only [parse_listA] at h
          rw [if_pos hl] at h
          by_cases hd : b = 100
          · simp only [parse_dictionaryA] at h
            rw [if_neg (by simp [hd])] at h
            rcases hloop : loopDAux (parse_valueF f) f [] rest with _ | rd
            · rw [hloop] at h; simp at h
            · rcases rd with _ | e | ⟨d, m⟩
              · simp only [hloop] at h; simp [PResult.map] at h
              · simp only [hloop] at h; simp [PResult.map] at h
              · simp only [hloop] at h
                simp [PResult.map] at h
                exact Or.inr (Or.inr (Or.inr ⟨rfl, rfl, hl, hd, d, m, rfl,
                  h.1.symm, h.2.symm⟩))
          · simp only [parse_dictionaryA] at h
            rw [if_pos hd] at h
            simp at h
      · rcases rb with _ | e | ⟨bs, nb⟩
        · simp only [hbs] at h; simp [PResult.map] at h
        · simp only [hbs] at h; simp [PResult.map] at h
        · simp only [hbs] at h
          simp [PResult.map] at h
          exact Or.inr (Or.inl ⟨rfl, bs, by rw [h.2], h.1.symm⟩)
    · rcases ri with _ | e | ⟨i, ni⟩
      · simp only [hint] at h; simp [PResult.map] at h
      · simp only [hint] at h; simp [PResult.map] at h
      · simp only [hint] at h
        simp [PResult.map] at h
        exact Or.inl ⟨i, by rw [h.2], h.1.symm⟩

/-! ## Consumed-length bounds (claim C10's invariant, used pervasively) -/

theorem loopFAux_bounds {pv : List Nat → Option (PResult ParseError (Value × Nat))}
    (Hpv : ∀ c v n, pv c = some (.ok (v, n)) → 1 ≤ n ∧ n ≤ c.length) :
    ∀ g s nds m, loopFAux pv g s = some (.ok (nds, m)) → 1 ≤ m ∧ m ≤ s.length := by
  intro g
  induction g with
  | zero => intro s nds m h; simp [loopFAux] at h
  | succ g ih =>
    intro s nds m h
    rcases loopFAux_ok_elim h with ⟨b, srest, rfl, hb, rfl, rfl⟩ |
      ⟨b, srest, v, n, nds', m', rfl, hb, hpv, hrec, rfl, rfl⟩
    · simp
    · have h1 := Hpv _ _ _ hpv
      have h2 := ih _ _ _ hrec
      rw [List.length_drop] at h2
      omega

theorem loopDAux_bounds {pv : List Nat → Option (PResult ParseError (Value × Nat))}
    (Hpv : ∀ c v n, pv c = some (.ok (v, n)) → 1 ≤ n ∧ n ≤ c.length) :
    ∀ g dict s d m, loopDAux pv g dict s = some (.ok (d, m)) → 1 ≤ m ∧ m ≤ s.length := by
  intro g
  induction g with
  | zero => intro dict s d m h; simp [loopDAux] at h
  | succ g ih =>
    intro dict s d m h
    rcases loopDAux_ok_elim h with ⟨b, srest, rfl, hb, rfl, rfl⟩ |
      ⟨b, srest, key, kn, v, vn, m', rfl, hb, hkey, hutf, hpv, hrec, rfl⟩
    · simp
    · have hk := parse_byte_string_bounds hkey
      have h1 := Hpv _ _ _ hpv
      have h2 := ih _ _ _ _ hrec
      rw [List.length_drop] at h1 h2
      omega

theorem parse_valueF_bounds :
    ∀ f c v n, parse_valueF f c = some (.ok (v, n)) → 1 ≤ n ∧ n ≤ c.length := by
  intro f
  induction f with
  | zero => intro c v n h; simp [parse_valueF] at h
  | succ f ih =>
    intro c v n h
    obtain ⟨b, rest, rfl, hcases⟩ := parse_valueF_ok_elim h
    rcases hcases with ⟨i, hint, rfl⟩ | ⟨_, bs, hbs, rfl⟩ |
      ⟨_, _, hl, nds, m, hloop, rfl, rfl⟩ | ⟨_, _, _, hd, d, m, hloop, rfl, rfl⟩
    · exact parse_interger_bounds hint
    · exact parse_byte_string_bounds hbs
    · have := loopFAux_bounds ih _ _ _ _ hloop
      simp only [List.length_cons]
      omega
    · have := loopDAux_bounds ih _ _ _ _ _ hloop
      simp only [List.length_cons]
      omega

/-! ## Fuel monotonicity -/

theorem loopFAux_mono {pv pv' : List Nat → Option (PResult ParseError (Value × Nat))}
    (hpv : ∀ x r, pv x = some r → pv' x = some r) :
    ∀ g g' s r, g ≤ g' → loopFAux pv g s = some r → loopFAux pv' g' s = some r := by
  intro g
  induction g with
  | zero => intro g' s r _ h; simp [loopFAux] at h
  | succ g ih =>
    intro g' s r hle h
    obtain _ | g'' := g'
    · exact absurd hle (by omega)
    · match s with
      | [] =>
        simp only [loopFAux] at h ⊢
        exact h
      | b :: srest =>
        by_cases hb : b = 101
        · simp only [loopFAux] at h ⊢
          rw [if_pos hb] at h ⊢
          exact h
        · simp only [loopFAux] at h ⊢
          rw [if_neg hb] at h ⊢
          rcases hx : pv (b :: srest) with _ | r0
          · rw [hx] at h; simp at h
          · rcases r0 with _ | e | ⟨v, n⟩
            · simp only [hx] at h
              simp only [hpv _ _ hx]
              exact h
            · simp only [hx] at h
              simp only [hpv _ _ hx]
              exact h
            · simp only [hx] at h
              simp only [hpv _ _ hx]
              rcases hrec : loopFAux pv g ((b :: srest).drop n) with _ | r1
              · rw [hrec] at h; simp at h
              · simp only [hrec] at h
                simp only [ih g'' ((b :: srest).drop n) r1 (by omega) hrec]
                exact h

theorem loopDAux_mono {pv pv' : List Nat → Option (PResult ParseError (Value × Nat))}
    (hpv : ∀ x r, pv x = some r → pv' x = some r) :
    ∀ g g' dict s r, g ≤ g' → loopDAux pv g dict s = some r →
      loopDAux pv' g' dict s = some r := by
  intro g
  induction g with
  | zero => intro g' dict s r _ h; simp [loopDAux] at h
  | succ g ih =>
    intro g' dict s r hle h
    obtain _ | g'' := g'
    · exact absurd hle (by omega)
    · match s with
      | [] =>
        simp only [loopDAux] at h ⊢
        exact h
      | b :: srest =>
        by_cases hb : b = 101
        · simp only [loopDAux] at h ⊢
          rw [if_pos hb] at h ⊢
          exact h
        · simp only [loopDAux] at h ⊢
          rw [if_neg hb] at h ⊢
          rcases hk : parse_byte_string (b :: srest) with _ | rk
          · rw [hk] at h
            exact h
          · rcases rk with _ | e | ⟨key, kn⟩
            · simp only [hk] at h
              exact h
            · simp only [hk] at h
              exact h
            · simp only [hk] at h
              by_cases hutf : utf8Valid key = true
              · rw [if_pos hutf] at h
                rcases hx : pv ((b :: srest).drop kn) with _ | r0
                · rw [hx] at h; simp at h
                · rcases r0 with _ | e | ⟨v, vn⟩
                  · simp only [hx] at h
                    simp only [hpv _ _ hx, if_pos hutf]
                    exact h
                  · simp only [hx] at h
                    simp only [hpv _ _ hx, if_pos hutf]
                    exact h
                  · simp only [hx] at h
                    simp only [hpv _ _ hx, if_pos hutf]
                    rcases hrec : loopDAux pv g
                        (dictInsert dict key (.mk v (((b :: srest).drop kn).take vn)))
                        ((b :: srest).drop (kn + vn)) with _ | r1
                    · rw [hrec] at h; simp at h
                    · simp only [hrec] at h
                      simp only [ih g'' _ _ r1 (by omega) hrec]
                      exact h
              · rw [if_neg hutf] at h
                simp only [if_neg hutf]
                exact h

theorem parse_listA_mono {pv pv' : List Nat → Option (PResult ParseError (Value × Nat))}
    (hpv : ∀ x r, pv x = some r → pv' x = some r)
    {g g' : Nat} {c : List Nat} {ol : Option (PResult ParseError (List Node × Nat))}
    (hle : g ≤ g') (h : parse_listA pv g c = some ol) : parse_listA pv' g' c = some ol := by
  match c with
  | [] => simpa [parse_listA] using h
  | b :: rest =>
    by_cases hl : b ≠ 108
    · simp only [parse_listA] at h ⊢
      rw [if_pos hl] at h ⊢
      exact h
    · simp only [parse_listA] at h ⊢
      rw [if_neg hl] at h ⊢
      rcases hloop : loopFAux pv g rest with _ | r
      · rw [hloop] at h; simp at h
      · simp only [hloop] at h
        simp only [loopFAux_mono hpv g g' rest r hle hloop]
        exact h

theorem parse_dictionaryA_mono {pv pv' : List Nat → Option (PResult ParseError (Value × Nat))}
    (hpv : ∀ x r, pv x = some r → pv' x = some r)
    {g g' : Nat} {c : List Nat} {od : Option (PResult ParseError (List Entry × Nat))}
    (hle : g ≤ g') (h : parse_dictionaryA pv g c = some od) :
    parse_dictionaryA pv' g' c = some od := by
  match c with
  | [] => simpa [parse_dictionaryA] using h
  | b :: rest =>
    by_cases hd : b ≠ 100
    · simp only [parse_dictionaryA] at h ⊢
      rw [if_pos hd] at h ⊢
      exact h
    · simp only [parse_dictionaryA] at h ⊢
      rw [if_neg hd] at h ⊢
      rcases hloop : loopDAux pv g [] rest with _ | r
      · rw [hloop] at h; simp at h
      · simp only [hloop] at h
        simp only [loopDAux_mono hpv g g' [] rest r hle hloop]
        exact h

theorem parse_valueF_mono :
    ∀ f f' c r, f ≤ f' → parse_valueF f c = some r → parse_valueF f' c = some r := by
  intro f
  induction f with
  | zero => intro f' c r _ h; simp [parse_valueF] at h
  | succ f ih =>
    intro f' c r hle h
    obtain _ | f'' := f'
    · exact absurd hle (by omega)
    · by_cases hc : c = []
      · subst hc
        simp only [parse_valueF] at h ⊢
        exact h
      · have hmono : ∀ x rr, parse_valueF f x = some rr → parse_valueF f'' x = some rr :=
          fun x rr hh => ih f'' x rr (by omega) hh
        simp only [parse_valueF] at h ⊢
        rw [if_neg hc] at h ⊢
        rcases hint : parse_interger c with _ | ri
        · simp only [hint] at h
          rcases hbs : parse_byte_string c with _ | rb
          · simp only [hbs] at h
            rcases hlist : parse_listA (parse_valueF f) f c with _ | ol
            · rw [hlist] at h; simp at h
            · have hlist2 := parse_listA_mono hmono (show f ≤ f'' by omega) hlist
              rcases ol with _ | rl
              · simp only [hlist] at h
                simp only [hlist2]
                rcases hdict : parse_dictionaryA (parse_valueF f) f c with _ | od
                · rw [hdict] at h; simp at h
                · have hdict2 := parse_dictionaryA_mono hmono (show f ≤ f'' by omega) hdict
                  rcases od with _ | rd
                  · simp only [hdict] at h
                    simp only [hdict2]
                    exact h
                  · simp only [hdict] at h
                    simp only [hdict2]
                    exact h
              · simp only [hlist] at h
                simp only [hlist2]
                exact h
          · simp only [hbs] at h
            exact h
        · simp only [hint] at h
          exact h

/-! ## Fuel sufficiency: the decoder terminates (claim C9) -/

theorem loopFAux_suff (f : Nat)
    (hpv : ∀ c, 2 * c.length + 1 ≤ f → (parse_valueF f c).isSome = true) :
    ∀ g s, s.length + 1 ≤ g → 2 * s.length + 1 ≤ f →
      (loopFAux (parse_valueF f) g s).isSome = true := by
  intro g
  induction g with
  | zero => intro s h1 _; exact absurd h1 (by omega)
  | succ g ih =>
    intro s hg hf
    match s with
    | [] => simp [loopFAux]
    | b :: srest =>
      by_cases hb : b = 101
      · simp [loopFAux, hb]
      · simp only [loopFAux]
        rw [if_neg hb]
        rcases Option.isSome_iff_exists.mp (hpv (b :: srest) hf) with ⟨r0, hr0⟩
        simp only [hr0]
        rcases r0 with _ | e | ⟨v, n⟩
        · simp
        · simp
        · have hb2 := parse_valueF_bounds _ _ _ _ hr0
          have h2 := ih ((b :: srest).drop n)
            (by rw [List.length_drop]; omega)
            (by rw [List.length_drop]; omega)
          rcases Option.isSome_iff_exists.mp h2 with ⟨r1, hr1⟩
          simp only [hr1]
          rcases r1 with _ | e | p <;> simp

theorem loopDAux_suff (f : Nat)
    (hpv : ∀ c, 2 * c.length + 1 ≤ f → (parse_valueF f c).isSome = true) :
    ∀ g dict s, s.length + 1 ≤ g → 2 * s.length + 1 ≤ f →
      (loopDAux (parse_valueF f) g dict s).isSome = true := by
  intro g
  induction g with
  | zero => intro dict s h1 _; exact absurd h1 (by omega)
  | succ g ih =>
    intro dict s hg hf
    match s with
    | [] => simp [loopDAux]
    | b :: srest =>
      by_cases hb : b = 101
      · simp [loopDAux, hb]
      · rcases hk : parse_byte_string (b :: srest) with _ | rk
        · simp only [loopDAux]
          rw [if_neg hb]
          simp [hk]
        · rcases rk with _ | e | ⟨key, kn⟩
          · simp only [loopDAux]
            rw [if_neg hb]
            simp [hk]
          · simp only [loopDAux]
            rw [if_neg hb]
            simp [hk]
          · have hkb := parse_byte_string_bounds hk
            by_cases hutf : utf8Valid key = true
            · rcases Option.isSome_iff_exists.mp
                (hpv ((b :: srest).drop kn) (by rw [List.length_drop]; omega)) with ⟨r0, hr0⟩
              rcases r0 with _ | e | ⟨v, vn⟩
              · simp only [loopDAux]
                rw [if_neg hb]
                simp [hk, hutf, hr0]
              · simp only [loopDAux]
                rw [if_neg hb]
                simp [hk, hutf, hr0]
              · have hvb := parse_valueF_bounds _ _ _ _ hr0
                rw [List.length_drop] at hvb
                have h2 := ih (dictInsert dict key (.mk v (((b :: srest).drop kn).take vn)))
                  ((b :: srest).drop (kn + vn))
                  (by rw [List.length_drop]; omega)
                  (by rw [List.length_drop]; omega)
                rcases Option.isSome_iff_exists.mp h2 with ⟨r1, hr1⟩
                rcases r1 with _ | e | p
                · simp only [loopDAux]
                  rw [if_neg hb]
                  simp [hk, hutf, hr0, hr1]
                · simp only [loopDAux]
                  rw [if_neg hb]
                  simp [hk, hutf, hr0, hr1]
                · simp only [loopDAux]
                  rw [if_neg hb]
                  simp [hk, hutf, hr0, hr1]
            · simp only [loopDAux]
              rw [if_neg hb]
              simp [hk, hutf]

theorem parse_valueF_suff :
    ∀ f c, 2 * c.length + 1 ≤ f → (parse_valueF f c).isSome = true := by
  intro f
  induction f with
  | zero => intro c h; exact absurd h (by omega)
  | succ f ih =>
    intro c hf
    match c with
    | [] => simp [parse_valueF]
    | b :: rest =>
      have hlen : (b :: rest).length = rest.length + 1 := by simp
      simp only [parse_valueF]
      rw [if_neg (by simp)]
      rcases hint : parse_interger (b :: rest) with _ | ri
      · simp only [hint]
        rcases hbs : parse_byte_string (b :: rest) with _ | rb
        · simp only [hbs]
          by_cases hl : b = 108
          · rcases Option.isSome_iff_exists.mp
              (loopFAux_suff f ih f rest (by omega) (by omega)) with ⟨r1, hr1⟩
            simp only [parse_listA]
            rw [if_neg (by simp [hl])]
            simp only [hr1]
            rcases r1 with _ | e | p <;> simp
          · simp only [parse_listA]
            rw [if_pos hl]
            by_cases hd : b = 100
            · rcases Option.isSome_iff_exists.mp
                (loopDAux_suff f ih f [] rest (by omega) (by omega)) with ⟨r1, hr1⟩
              simp only [parse_dictionaryA]
              rw [if_neg (by simp [hd])]
              simp only [hr1]
              rcases r1 with _ | e | p <;> simp
            · simp only [parse_dictionaryA]
              rw [if_pos hd]
              simp
        · rcases rb with _ | e | p <;> simp [hbs]
      · rcases ri with _ | e | p <;> simp [hint]

/-- The canonical fuel is always enough: `parse_valueF` at fuel
`2 * length + 1` returns exactly the definitive result `parse_value`. -/
theorem parse_valueF_canonical (c : List Nat) :
    parse_valueF (2 * c.length + 1) c = some (parse_value c) := by
  rcases Option.isSome_iff_exists.mp (parse_valueF_suff _ c le_rfl) with ⟨r0, hr0⟩
  rw [hr0, parse_value, hr0]
  rfl

theorem parse_valueF_eq_parse_value {f : Nat} {c : List Nat}
    {r : PResult ParseError (Value × Nat)}
    (h : parse_valueF f c = some r) : parse_value c = r := by
  rcases le_total f (2 * c.length + 1) with hf | hf
  · have h2 := parse_valueF_mono f (2 * c.length + 1) c r hf h
    rw [parse_value, h2]
    rfl
  · have h3 := parse_valueF_mono (2 * c.length + 1) f c (parse_value c) hf
      (parse_valueF_canonical c)
    rw [h] at h3
    injection h3 with h4
    exact h4.symm

/-! ## Prefix determinism: a successful decode depends only on the bytes it
consumed.  This is the key structural fact behind the truncation behaviour
(C2) and the span invariants (C7). -/

theorem parse_interger_not_i {b : Nat} {rest : List Nat} (hb : b ≠ 105) :
    parse_interger (b :: rest) = none := by
  simp [parse_interger, hb]

theorem parse_byte_string_gate {b : Nat} {rest : List Nat} (hb : b ≤ 48 ∨ 57 ≤ b) :
    parse_byte_string (b :: rest) = none := by
  simp [parse_byte_string, hb]

theorem drop_take_prefix_of_take_prefix {s t : List Nat} {a k : Nat}
    (hak : a + k ≤ s.length) (h : s.take (a + k) <+: t) :
    (s.drop a).take k <+: t.drop a := by
  obtain ⟨tail, htail⟩ := h
  refine ⟨tail, ?_⟩
  rw [← htail, List.drop_append_of_le_length (by rw [List.length_take]; omega),
    List.drop_take]
  congr 2
  omega

theorem loopFAux_take {pv : List Nat → Option (PResult ParseError (Value × Nat))}
    (Hpvb : ∀ c v n, pv c = some (.ok (v, n)) → 1 ≤ n ∧ n ≤ c.length)
    (Hpv : ∀ c v n, pv c = some (.ok (v, n)) →
      ∀ t, c.take n <+: t → pv t = some (.ok (v, n))) :
    ∀ g s nds m, loopFAux pv g s = some (.ok (nds, m)) →
      ∀ t, s.take m <+: t → loopFAux pv g t = some (.ok (nds, m)) := by
  intro g
  induction g with
  | zero => intro s nds m h; simp [loopFAux] at h
  | succ g ih =>
    intro s nds m h t hpre
    rcases loopFAux_ok_elim h with ⟨b, srest, rfl, hb, rfl, rfl⟩ |
      ⟨b, srest, v, n, nds', m', rfl, hb, hpv1, hrec, rfl, rfl⟩
    · subst hb
      obtain ⟨trest, rfl⟩ := head_eq_of_take_prefix rfl (by omega) hpre
      simp [loopFAux]
    · have hnb := Hpvb _ _ _ hpv1
      have hmb := loopFAux_bounds Hpvb _ _ _ _ hrec
      rw [List.length_drop] at hmb
      obtain ⟨trest, rfl⟩ := head_eq_of_take_prefix rfl (by omega) hpre
      have hpv2 : pv (b :: trest) = some (.ok (v, n)) :=
        Hpv _ _ _ hpv1 _
          (List.IsPrefix.trans (List.take_prefix_take_left _ (by omega)) hpre)
      have hdrop_pre : ((b :: srest).drop n).take m' <+: (b :: trest).drop n :=
        drop_take_prefix_of_take_prefix (by omega) hpre
      have hrec2 := ih _ _ _ hrec _ hdrop_pre
      have htake : (b :: trest).take n = (b :: srest).take n :=
        take_eq_of_take_prefix (by omega) (by omega) hpre
      simp only [loopFAux]
      rw [if_neg hb]
      simp only [hpv2, hrec2, htake]

theorem loopDAux_take {pv : List Nat → Option (PResult ParseError (Value × Nat))}
    (Hpvb : ∀ c v n, pv c = some (.ok (v, n)) → 1 ≤ n ∧ n ≤ c.length)
    (Hpv : ∀ c v n, pv c = some (.ok (v, n)) →
      ∀ t, c.take n <+: t → pv t = some (.ok (v, n))) :
    ∀ g dict s d m, loopDAux pv g dict s = some (.ok (d, m)) →
      ∀ t, s.take m <+: t → loopDAux pv g dict t = some (.ok (d, m)) := by
  intro g
  induction g with
  | zero => intro dict s d m h; simp [loopDAux] at h
  | succ g ih =>
    intro dict s d m h t hpre
    rcases loopDAux_ok_elim h with ⟨b, srest, rfl, hb, rfl, rfl⟩ |
      ⟨b, srest, key, kn, v, vn, m', rfl, hb, hkey, hutf, hpv1, hrec, rfl⟩
    · subst hb
      obtain ⟨trest, rfl⟩ := head_eq_of_take_prefix rfl (by omega) hpre
      simp [loopDAux]
    · have hknb := parse_byte_string_bounds hkey
      have hvnb := Hpvb _ _ _ hpv1
      rw [List.length_drop] at hvnb
      have hmb := loopDAux_bounds Hpvb _ _ _ _ _ hrec
      rw [List.length_drop] at hmb
      obtain ⟨trest, rfl⟩ := head_eq_of_take_prefix rfl (by omega) hpre
      have hkey2 : parse_byte_string (b :: trest) = some (.ok (key, kn)) :=
        parse_byte_string_take hkey _
          (List.IsPrefix.trans (List.take_prefix_take_left _ (by omega)) hpre)
      have hpv2 : pv ((b :: trest).drop kn) = some (.ok (v, vn)) := by
        refine Hpv _ _ _ hpv1 _ ?_
        exact drop_take_prefix_of_take_prefix (by omega)
          (List.IsPrefix.trans (List.take_prefix_take_left _ (by omega)) hpre)
      have e1 : (b :: trest).take (kn + vn) = (b :: srest).take (kn + vn) :=
        take_eq_of_take_prefix (by omega) (by omega) hpre
      have e2 : ((b :: trest).drop kn).take vn = ((b :: srest).drop kn).take vn := by
        have h1 := congrArg (List.drop kn) e1
        rw [List.drop_take, List.drop_take] at h1
        rw [show kn + vn - kn = vn by omega] at h1
        exact h1
      have hdrop_pre : ((b :: srest).drop (kn + vn)).take m' <+: (b :: trest).drop (kn + vn) :=
        drop_take_prefix_of_take_prefix (by omega) hpre
      have hrec2 := ih _ _ _ _ hrec _ hdrop_pre
      simp only [loopDAux]
      rw [if_neg hb]
      simp only [hkey2]
      rw [if_pos hutf]
      simp only [hpv2, e2, hrec2]

theorem parse_byte_string_head_gate {b : Nat} {rest bs : List Nat} {n : Nat}
    (h : parse_byte_string (b :: rest) = some (.ok (bs, n))) : 48 < b ∧ b < 57 := by
  obtain ⟨b', rest', colon_idx, length, heq, hgate, _, _, _, _, _, _⟩ :=
    parse_byte_string_elim h
  injection heq with h1 h2
  subst h1
  omega

theorem parse_valueF_take :
    ∀ f c v n, parse_valueF f c = some (.ok (v, n)) →
      ∀ t, c.take n <+: t → parse_valueF f t = some (.ok (v, n)) := by
  intro f
  induction f with
  | zero => intro c v n h; simp [parse_valueF] at h
  | succ f ih =>
    intro c v n h t hpre
    have hb2 := parse_valueF_bounds _ _ _ _ h
    obtain ⟨b, rest, rfl, hcases⟩ := parse_valueF_ok_elim h
    obtain ⟨trest, rfl⟩ := head_eq_of_take_prefix rfl (by omega) hpre
    rcases hcases with ⟨i, hint, rfl⟩ | ⟨_, bs, hbs, rfl⟩ |
      ⟨_, _, hl, nds, m, hloop, rfl, rfl⟩ | ⟨_, _, hl, hd, d, m, hloop, rfl, rfl⟩
    · have hint2 := parse_interger_take hint _ hpre
      simp only [parse_valueF]
      rw [if_neg (by simp)]
      simp only [hint2]
      simp [PResult.map]
    · have hgate := parse_byte_string_head_gate hbs
      have hbs2 := parse_byte_string_take hbs _ hpre
      simp only [parse_valueF]
      rw [if_neg (by simp)]
      simp only [parse_interger_not_i (show b ≠ 105 by omega), hbs2]
      simp [PResult.map]
    · subst hl
      have hmb := loopFAux_bounds (parse_valueF_bounds f) _ _ _ _ hloop
      have hpre2 : rest.take m <+: trest := by
        obtain ⟨tail, htail⟩ := hpre
        simp only [List.take_succ_cons, List.cons_append, List.cons.injEq] at htail
        exact ⟨tail, htail.2⟩
      have hloop2 := loopFAux_take (parse_valueF_bounds f) (ih) f _ _ _ hloop _ hpre2
      have hlist2 : parse_listA (parse_valueF f) f (108 :: trest)
          = some (some (.ok (nds, m + 1))) := by
        simp only [parse_listA]
        rw [if_neg (by simp)]
        simp only [hloop2]
      simp only [parse_valueF]
      rw [if_neg (by simp)]
      simp only [parse_interger_not_i (show (108 : Nat) ≠ 105 by omega),
        parse_byte_string_gate (show (108 : Nat) ≤ 48 ∨ 57 ≤ 108 by omega), hlist2]
      simp [PResult.map]
    · subst hd
      have hmb := loopDAux_bounds (parse_valueF_bounds f) _ _ _ _ _ hloop
      have hpre2 : rest.take m <+: trest := by
        obtain ⟨tail, htail⟩ := hpre
        simp only [List.take_succ_cons, List.cons_append, List.cons.injEq] at htail
        exact ⟨tail, htail.2⟩
      have hloop2 := loopDAux_take (parse_valueF_bounds f) (ih) f _ _ _ _ hloop _ hpre2
      have hdict2 : parse_dictionaryA (parse_valueF f) f (100 :: trest)
          = some (some (.ok (d, m + 1))) := by
        simp only [parse_dictionaryA]
        rw [if_neg (by simp)]
        simp only [hloop2]
      have hlist2 : parse_listA (parse_valueF f) f (100 :: trest) = some none := by
        simp only [parse_listA]
        rw [if_pos (by omega)]
      simp only [parse_valueF]
      rw [if_neg (by simp)]
      simp only [parse_interger_not_i (show (100 : Nat) ≠ 105 by omega),
        parse_byte_string_gate (show (100 : Nat) ≤ 48 ∨ 57 ≤ 100 by omega),
        hlist2, hdict2]
      simp [PResult.map]

/-- A non-empty slice matched by no production: the dispatcher falls
through all four decoders and reports `InvalidPrefix`. -/
theorem parse_valueF_no_production {f : Nat} {b : Nat} {rest : List Nat}
    (hi : parse_interger (b :: rest) = none)
    (hbs : parse_byte_string (b :: rest) = none)
    (hl : b ≠ 108) (hd : b ≠ 100) :
    parse_valueF (f + 1) (b :: rest) = some (.error .InvalidPrefix) := by
  have hlist : parse_listA (parse_valueF f) f (b :: rest) = some none := by
    simp only [parse_listA]
    rw [if_pos hl]
  have hdict : parse_dictionaryA (parse_valueF f) f (b :: rest) = some none := by
    simp only [parse_dictionaryA]
    rw [if_pos hd]
  simp only [parse_valueF]
  rw [if_neg (by simp)]
  simp only [hi, hbs, hlist, hdict]

/-! ## No panic on prefixes of successful decodes.  The only panic site is
the byte-string length arithmetic; a prefix of a slice whose decode
succeeded sees the same (in-range) length literals along the way, so it
can fail but never panic.  This is what preserves the truncation claim in
the panic-aware model. -/

theorem loopFAux_no_panic {pv : List Nat → Option (PResult ParseError (Value × Nat))}
    (Hpvt : ∀ c v n, pv c = some (.ok (v, n)) →
      ∀ t, c.take n <+: t → pv t = some (.ok (v, n)))
    (Hpvn : ∀ c v n, pv c = some (.ok (v, n)) → ∀ t, t <+: c → pv t ≠ some .panic) :
    ∀ g s nds m, loopFAux pv g s = some (.ok (nds, m)) →
      ∀ t, t <+: s → loopFAux pv g t ≠ some .panic := by
  intro g
  induction g with
  | zero => intro s nds m h; simp [loopFAux] at h
  | succ g ih =>
    intro s nds m h t hpre hcontra
    rcases loopFAux_ok_elim h with ⟨b, srest, rfl, hb, rfl, rfl⟩ |
      ⟨b, srest, v, n, nds', m', rfl, hb, hpv1, hrec, rfl, rfl⟩
    · match t with
      | [] => simp [loopFAux] at hcontra
      | tb :: trest =>
        have htb : tb = b := prefix_head_eq hpre
        subst htb
        subst hb
        simp [loopFAux] at hcontra
    · match t with
      | [] => simp [loopFAux] at hcontra
      | tb :: trest =>
        have htb : tb = b := prefix_head_eq hpre
        subst htb
        simp only [loopFAux] at hcontra
        rw [if_neg hb] at hcontra
        rcases hpt : pv (tb :: trest) with _ | rt
        · rw [hpt] at hcontra
          simp at hcontra
        · rcases rt with _ | e | ⟨v', n'⟩
          · exact Hpvn _ _ _ hpv1 _ hpre hpt
          · simp only [hpt] at hcontra
            simp at hcontra
          · simp only [hpt] at hcontra
            have hext : pv (tb :: srest) = some (.ok (v', n')) :=
              Hpvt _ _ _ hpt _ ((take_isPrefix_self _ _).trans hpre)
            rw [hpv1] at hext
            simp at hext
            obtain ⟨hv2, hn2⟩ := hext
            subst hv2
            subst hn2
            rcases hrt : loopFAux pv g ((tb :: trest).drop n) with _ | rt2
            · rw [hrt] at hcontra
              simp at hcontra
            · rcases rt2 with _ | e | ⟨nds2, m2⟩
              · exact ih _ _ _ hrec _ (prefix_drop hpre n) hrt
              · simp only [hrt] at hcontra
                simp at hcontra
              · simp only [hrt] at hcontra
                simp at hcontra

theorem loopDAux_no_panic {pv : List Nat → Option (PResult ParseError (Value × Nat))}
    (Hpvt : ∀ c v n, pv c = some (.ok (v, n)) →
      ∀ t, c.take n <+: t → pv t = some (.ok (v, n)))
    (Hpvn : ∀ c v n, pv c = some (.ok (v, n)) → ∀ t, t <+: c → pv t ≠ some .panic) :
    ∀ g dict s d m, loopDAux pv g dict s = some (.ok (d, m)) →
      ∀ dict2 t, t <+: s → loopDAux pv g dict2 t ≠ some .panic := by
  intro g
  induction g with
  | zero => intro dict s d m h; simp [loopDAux] at h
  | succ g ih =>
    intro dict s d m h dict2 t hpre hcontra
    rcases loopDAux_ok_elim h with ⟨b, srest, rfl, hb, rfl, rfl⟩ |
      ⟨b, srest, key, kn, v, vn, m', rfl, hb, hkey, hutf, hpv1, hrec, rfl⟩
    · match t with
      | [] => simp [loopDAux] at hcontra
      | tb :: trest =>
        have htb : tb = b := prefix_head_eq hpre
        subst htb
        subst hb
        simp [loopDAux] at hcontra
    · match t with
      | [] => simp [loopDAux] at hcontra
      | tb :: trest =>
        have htb : tb = b := prefix_head_eq hpre
        subst htb
        simp only [loopDAux] at hcontra
        rw [if_neg hb] at hcontra
        rcases hkt : parse_byte_string (tb :: trest) with _ | rk
        · rw [hkt] at hcontra
          simp at hcontra
        · rcases rk with _ | e | ⟨key', kn'⟩
          · exact parse_byte_string_no_panic hkey _ hpre hkt
          · simp only [hkt] at hcontra
            simp at hcontra
          · simp only [hkt] at hcontra
            have hext : parse_byte_string (tb :: srest) = some (.ok (key', kn')) :=
              parse_byte_string_take hkt _ ((take_isPrefix_self _ _).trans hpre)
            rw [hkey] at hext
            simp at hext
            obtain ⟨hk2, hn2⟩ := hext
            subst hk2
            subst hn2
            rw [if_pos hutf] at hcontra
            rcases hvt : pv ((tb :: trest).drop kn) with _ | rv
            · rw [hvt] at hcontra
              simp at hcontra
            · rcases rv with _ | e | ⟨v', vn'⟩
              · exact Hpvn _ _ _ hpv1 _ (prefix_drop hpre kn) hvt
              · simp only [hvt] at hcontra
                simp at hcontra
              · simp only [hvt] at hcontra
                have hext2 : pv ((tb :: srest).drop kn) = some (.ok (v', vn')) :=
                  Hpvt _ _ _ hvt _ ((take_isPrefix_self _ _).trans (prefix_drop hpre kn))
                rw [hpv1] at hext2
                simp at hext2
                obtain ⟨hv2, hvn2⟩ := hext2
                subst hv2
                subst hvn2
                rcases hrt : loopDAux pv g
                    (dictInsert dict2 key (.mk v (((tb :: trest).drop kn).take vn)))
                    ((tb :: trest).drop (kn + vn)) with _ | rr
                · rw [hrt] at hcontra
                  simp at hcontra
                · rcases rr with _ | e | ⟨d2, m2⟩
                  · exact ih _ _ _ _ hrec _ _ (prefix_drop hpre (kn + vn)) hrt
                  · simp only [hrt] at hcontra
                    simp at hcontra
                  · simp only [hrt] at hcontra
                    simp at hcontra

theorem parse_valueF_no_panic :
    ∀ f c v n, parse_valueF f c = some (.ok (v, n)) →
      ∀ t, t <+: c → parse_valueF f t ≠ some .panic := by
  intro f
  induction f with
  | zero => intro c v n h; simp [parse_valueF] at h
  | succ f ih =>
    intro c v n h t hpre hcontra
    obtain ⟨b, rest, rfl, hcases⟩ := parse_valueF_ok_elim h
    match t with
    | [] => simp [parse_valueF] at hcontra
    | tb :: trest =>
      have htb : tb = b := prefix_head_eq hpre
      subst htb
      rcases hcases with ⟨i, hint, rfl⟩ | ⟨hint0, bs, hbs, rfl⟩ |
        ⟨hint0, hbs0, hl, nds, m, hloop, rfl, rfl⟩ |
        ⟨hint0, hbs0, hl, hd, dd, m, hloop, rfl, rfl⟩
      · have hb105 : tb = 105 := by
          by_contra hne
          rw [parse_interger_not_i hne] at hint
          exact Option.noConfusion hint
        subst hb105
        rcases hit : parse_interger (105 :: trest) with _ | rt
        · rw [@parse_valueF_no_production f 105 trest hit
            (parse_byte_string_gate (by omega)) (by omega) (by omega)] at hcontra
          simp at hcontra
        · rcases rt with _ | e | p
          · exact parse_interger_no_panic _ hit
          · simp only [parse_valueF] at hcontra
            rw [if_neg (by simp)] at hcontra
            simp only [hit] at hcontra
            simp [PResult.map] at hcontra
          · simp only [parse_valueF] at hcontra
            rw [if_neg (by simp)] at hcontra
            simp only [hit] at hcontra
            simp [PResult.map] at hcontra
      · have hg := parse_byte_string_head_gate hbs
        have hti : parse_interger (tb :: trest) = none := parse_interger_not_i (by omega)
        rcases hbt : parse_byte_string (tb :: trest) with _ | rt
        · rw [@parse_valueF_no_production f tb trest hti hbt (by omega) (by omega)] at hcontra
          simp at hcontra
        · rcases rt with _ | e | p
          · exact parse_byte_string_no_panic hbs _ hpre hbt
          · simp only [parse_valueF] at hcontra
            rw [if_neg (by simp)] at hcontra
            simp only [hti, hbt] at hcontra
            simp [PResult.map] at hcontra
          · simp only [parse_valueF] at hcontra
            rw [if_neg (by simp)] at hcontra
            simp only [hti, hbt] at hcontra
            simp [PResult.map] at hcontra
      · subst hl
        have hti : parse_interger (108 :: trest) = none := parse_interger_not_i (by omega)
        have hbt : parse_byte_string (108 :: trest) = none := parse_byte_string_gate (by omega)
        rcases hlt : loopFAux (parse_valueF f) f trest with _ | rt
        · have hlA : parse_listA (parse_valueF f) f (108 :: trest) = none := by
            simp only [parse_listA]
            rw [if_neg (by simp)]
            simp only [hlt]
          simp only [parse_valueF] at hcontra
          rw [if_neg (by simp)] at hcontra
          simp only [hti, hbt, hlA] at hcontra
          simp at hcontra
        · rcases rt with _ | e | ⟨nds2, m2⟩
          · exact loopFAux_no_panic (parse_valueF_take f) ih f rest nds m hloop trest
              (prefix_cons_cons hpre) hlt
          · have hlA : parse_listA (parse_valueF f) f (108 :: trest)
                = some (some (.error e)) := by
              simp only [parse_listA]
              rw [if_neg (by simp)]
              simp only [hlt]
            simp only [parse_valueF] at hcontra
            rw [if_neg (by simp)] at hcontra
            simp only [hti, hbt, hlA] at hcontra
            simp [PResult.map] at hcontra
          · have hlA : parse_listA (parse_valueF f) f (108 :: trest)
                = some (some (.ok (nds2, m2 + 1))) := by
              simp only [parse_listA]
              rw [if_neg (by simp)]
              simp only [hlt]
            simp only [parse_valueF] at hcontra
            rw [if_neg (by simp)] at hcontra
            simp only [hti, hbt, hlA] at hcontra
            simp [PResult.map] at hcontra
      · subst hd
        have hti : parse_interger (100 :: trest) = none := parse_interger_not_i (by omega)
        have hbt : parse_byte_string (100 :: trest) = none := parse_byte_string_gate (by omega)
        have hlA : parse_listA (parse_valueF f) f (100 :: trest) = some none := by
          simp only [parse_listA]
          rw [if_pos (by omega)]
        rcases hdt : loopDAux (parse_valueF f) f [] trest with _ | rt
        · have hdA : parse_dictionaryA (parse_valueF f) f (100 :: trest) = none := by
            simp only [parse_dictionaryA]
            rw [if_neg (by simp)]
            simp only [hdt]
          simp only [parse_valueF] at hcontra
          rw [if_neg (by simp)] at hcontra
          simp only [hti, hbt, hlA, hdA] at hcontra
          simp at hcontra
        · rcases rt with _ | e | ⟨d2, m2⟩
          · exact loopDAux_no_panic (parse_valueF_take f) ih f [] rest dd m hloop [] trest
              (prefix_cons_cons hpre) hdt
          · have hdA : parse_dictionaryA (parse_valueF f) f (100 :: trest)
                = some (some (.error e)) := by
              simp only [parse_dictionaryA]
              rw [if_neg (by simp)]
              simp only [hdt]
            simp only [parse_valueF] at hcontra
            rw [if_neg (by simp)] at hcontra
            simp only [hti, hbt, hlA, hdA] at hcontra
            simp [PResult.map] at hcontra
          · have hdA : parse_dictionaryA (parse_valueF f) f (100 :: trest)
                = some (some (.ok (d2, m2 + 1))) := by
              simp only [parse_dictionaryA]
              rw [if_neg (by simp)]
              simp only [hdt]
            simp only [parse_valueF] at hcontra
            rw [if_neg (by simp)] at hcontra
            simp only [hti, hbt, hlA, hdA] at hcontra
            simp [PResult.map] at hcontra

/-! ## Corollaries of prefix determinism at the canonical entry point -/

theorem parse_value_ok_fueled {c : List Nat} {v : Value} {n : Nat}
    (h : parse_value c = .ok (v, n)) :
    parse_valueF (2 * c.length + 1) c = some (.ok (v, n)) := by
  have h2 := parse_valueF_canonical c
  rw [h] at h2
  exact h2

theorem parse_value_take_eq {c : List Nat} {v : Value} {n : Nat}
    (h : parse_value c = .ok (v, n)) :
    ∀ t, c.take n <+: t → parse_value t = .ok (v, n) := fun t ht =>
  parse_valueF_eq_parse_value
    (parse_valueF_take _ _ _ _ (parse_value_ok_fueled h) t ht)

theorem parse_value_bounds {c : List Nat} {v : Value} {n : Nat}
    (h : parse_value c = .ok (v, n)) : 1 ≤ n ∧ n ≤ c.length :=
  parse_valueF_bounds _ _ _ _ (parse_value_ok_fueled h)

/-! ## Span well-formedness (claim C7): every node of a decoded tree
reparses from its own `unparsed` slice to itself, and children lie inside
the parent's interior (between the parent's framing bytes). -/

/-- The bytes of a List/Dictionary encoding strictly between the opening
`l`/`d` and the closing `e`. -/
def encInterior (enc : List Nat) : List Nat := (enc.drop 1).dropLast

mutual

/-- The span of a node is self-describing: decoding its `unparsed` slice
yields exactly its value, consuming the whole slice; recursively so for
all children. -/
def NodeSpanOK : Node → Prop
  | .mk v u => parse_value u = .ok (v, u.length) ∧ ChildrenOK v u

/-- Direct children of a value lie inside the interior of its encoding and
are themselves span-correct. -/
def ChildrenOK : Value → List Nat → Prop
  | .Integer _, _ => True
  | .ByteString _, _ => True
  | .List l, enc => NodesOK l (encInterior enc)
  | .Dictionary d, enc => EntriesOK d (encInterior enc)

def NodesOK : List Node → List Nat → Prop
  | [], _ => True
  | nd :: rest, enc => (nd.unparsed <:+: enc ∧ NodeSpanOK nd) ∧ NodesOK rest enc

def EntriesOK : List Entry → List Nat → Prop
  | [], _ => True
  | .mk _ nd :: rest, enc => (nd.unparsed <:+: enc ∧ NodeSpanOK nd) ∧ EntriesOK rest enc

end

theorem NodesOK_iff {l : List Node} {enc : List Nat} :
    NodesOK l enc ↔ ∀ nd ∈ l, nd.unparsed <:+: enc ∧ NodeSpanOK nd := by
  induction l with
  | nil => simp [NodesOK]
  | cons nd rest ih => simp [NodesOK, ih]

theorem EntriesOK_iff {d : List Entry} {enc : List Nat} :
    EntriesOK d enc ↔ ∀ e ∈ d, e.node.unparsed <:+: enc ∧ NodeSpanOK e.node := by
  induction d with
  | nil => simp [EntriesOK]
  | cons e rest ih =>
    obtain ⟨k, nd⟩ := e
    simp [EntriesOK, Entry.node, ih]

theorem NodesOK_mono {l : List Node} {enc enc' : List Nat}
    (h : NodesOK l enc) (he : enc <:+: enc') : NodesOK l enc' := by
  rw [NodesOK_iff] at h ⊢
  exact fun nd hnd => ⟨(h nd hnd).1.trans he, (h nd hnd).2⟩

theorem dictInsert_mem {d : List Entry} {k : List Nat} {nd : Node} {e : Entry}
    (h : e ∈ dictInsert d k nd) : e ∈ d ∨ e = .mk k nd := by
  induction d with
  | nil => simp [dictInsert] at h; exact Or.inr h
  | cons e0 rest ih =>
    simp only [dictInsert] at h
    by_cases hk : e0.key = k
    · rw [if_pos hk] at h
      rcases List.mem_cons.mp h with h1 | h1
      · exact Or.inr h1
      · exact Or.inl (List.mem_cons.mpr (Or.inr h1))
    · rw [if_neg hk] at h
      rcases List.mem_cons.mp h with h1 | h1
      · exact Or.inl (List.mem_cons.mpr (Or.inl h1))
      · rcases ih h1 with h2 | h2
        · exact Or.inl (List.mem_cons.mpr (Or.inr h2))
        · exact Or.inr h2

theorem slice_infix_take {s : List Nat} (a k : Nat) :
    (s.drop a).take k <:+: s.take (a + k) := by
  rw [List.take_add]
  exact (List.suffix_append _ _).isInfix

theorem loopFAux_spans {pv : List Nat → Option (PResult ParseError (Value × Nat))}
    (Hpvb : ∀ c v n, pv c = some (.ok (v, n)) → 1 ≤ n ∧ n ≤ c.length)
    (Hpv : ∀ s v n, pv s = some (.ok (v, n)) →
      parse_value (s.take n) = .ok (v, n) ∧ ChildrenOK v (s.take n)) :
    ∀ g s nds m, loopFAux pv g s = some (.ok (nds, m)) →
      NodesOK nds (s.take (m - 1)) := by
  intro g
  induction g with
  | zero => intro s nds m h; simp [loopFAux] at h
  | succ g ih =>
    intro s nds m h
    rcases loopFAux_ok_elim h with ⟨b, srest, rfl, hb, rfl, rfl⟩ |
      ⟨b, srest, v, n, nds', m', rfl, hb, hpv1, hrec, rfl, rfl⟩
    · simp [NodesOK]
    · have hnb := Hpvb _ _ _ hpv1
      have hmb := loopFAux_bounds Hpvb _ _ _ _ hrec
      rw [List.length_drop] at hmb
      have hspan := Hpv _ _ _ hpv1
      constructor
      · constructor
        · exact (List.take_prefix_take_left _ (by omega)).isInfix
        · simp only [NodeSpanOK]
          refine ⟨?_, hspan.2⟩
          rw [List.length_take, inf_eq_left.mpr (by omega)]
          exact hspan.1
      · have h1 := ih _ _ _ hrec
        refine NodesOK_mono h1 ?_
        have h2 := slice_infix_take (s := b :: srest) n (m' - 1)
        rw [show n + (m' - 1) = n + m' - 1 by omega] at h2
        exact h2

theorem loopDAux_spans {pv : List Nat → Option (PResult ParseError (Value × Nat))}
    (Hpvb : ∀ c v n, pv c = some (.ok (v, n)) → 1 ≤ n ∧ n ≤ c.length)
    (Hpv : ∀ s v n, pv s = some (.ok (v, n)) →
      parse_value (s.take n) = .ok (v, n) ∧ ChildrenOK v (s.take n)) :
    ∀ g dict s d m, loopDAux pv g dict s = some (.ok (d, m)) →
      ∀ enc, (∀ e ∈ dict, e.node.unparsed <:+: enc ∧ NodeSpanOK e.node) →
        s.take (m - 1) <:+: enc →
        ∀ e ∈ d, e.node.unparsed <:+: enc ∧ NodeSpanOK e.node := by
  intro g
  induction g with
  | zero => intro dict s d m h; simp [loopDAux] at h
  | succ g ih =>
    intro dict s d m h enc hdict henc
    rcases loopDAux_ok_elim h with ⟨b, srest, rfl, hb, rfl, rfl⟩ |
      ⟨b, srest, key, kn, v, vn, m', rfl, hb, hkey, hutf, hpv1, hrec, rfl⟩
    · exact hdict
    · have hknb := parse_byte_string_bounds hkey
      have hvnb := Hpvb _ _ _ hpv1
      rw [List.length_drop] at hvnb
      have hmb := loopDAux_bounds Hpvb _ _ _ _ _ hrec
      rw [List.length_drop] at hmb
      have hspan := Hpv _ _ _ hpv1
      refine ih _ _ _ _ hrec enc ?_ ?_
      · intro e he
        rcases dictInsert_mem he with h1 | rfl
        · exact hdict e h1
        · constructor
          · simp only [Entry.node, Node.unparsed]
            refine List.IsInfix.trans ?_ henc
            refine List.IsInfix.trans (slice_infix_take kn vn) ?_
            exact (List.take_prefix_take_left _ (by omega)).isInfix
          · simp only [Entry.node, NodeSpanOK]
            refine ⟨?_, hspan.2⟩
            rw [List.length_take, List.length_drop, inf_eq_left.mpr (by omega)]
            exact hspan.1
      · refine List.IsInfix.trans ?_ henc
        have h2 := slice_infix_take (s := b :: srest) (kn + vn) (m' - 1)
        rw [show kn + vn + (m' - 1) = kn + vn + m' - 1 by omega] at h2
        exact h2

theorem parse_valueF_spans :
    ∀ f c v n, parse_valueF f c = some (.ok (v, n)) → ChildrenOK v (c.take n) := by
  intro f
  induction f with
  | zero => intro c v n h; simp [parse_valueF] at h
  | succ f ih =>
    intro c v n h
    have Hpv : ∀ s w k, parse_valueF f s = some (.ok (w, k)) →
        parse_value (s.take k) = .ok (w, k) ∧ ChildrenOK w (s.take k) := by
      intro s w k hs
      refine ⟨parse_valueF_eq_parse_value
        (parse_valueF_take _ _ _ _ hs _ (List.prefix_refl _)), ih _ _ _ hs⟩
    obtain ⟨b, rest, rfl, hcases⟩ := parse_valueF_ok_elim h
    rcases hcases with ⟨i, hint, rfl⟩ | ⟨_, bs, hbs, rfl⟩ |
      ⟨_, _, hl, nds, m, hloop, rfl, rfl⟩ | ⟨_, _, hl, hd, d, m, hloop, rfl, rfl⟩
    · simp [ChildrenOK]
    · simp [ChildrenOK]
    · have hmb := loopFAux_bounds (parse_valueF_bounds f) _ _ _ _ hloop
      have h1 := loopFAux_spans (parse_valueF_bounds f) Hpv _ _ _ _ hloop
      simp only [ChildrenOK, encInterior, List.take_succ_cons, List.drop_succ_cons,
        List.drop_nil, List.drop_zero]
      rw [List.dropLast_eq_take, List.length_take, inf_eq_left.mpr (by omega),
        List.take_take, inf_eq_left.mpr (by omega)]
      exact h1
    · have hmb := loopDAux_bounds (parse_valueF_bounds f) _ _ _ _ _ hloop
      have h1 := loopDAux_spans (parse_valueF_bounds f) Hpv _ _ _ _ _ hloop
        (rest.take (m - 1)) (by simp) (List.infix_refl _)
      simp only [ChildrenOK, encInterior, List.take_succ_cons, List.drop_succ_cons,
        List.drop_nil, List.drop_zero]
      rw [List.dropLast_eq_take, List.length_take, inf_eq_left.mpr (by omega),
        List.take_take, inf_eq_left.mpr (by omega)]
      exact EntriesOK_iff.mpr h1

/-! ## Supporting lemmas for the integer-literal claims -/

theorem parseI64_range {s : List Nat} {i : Int} (h : parseI64 s = some i) :
    -(2 ^ 63) ≤ i ∧ i ≤ 2 ^ 63 - 1 := by
  match s with
  | [] => simp [parseI64] at h
  | c :: rest =>
    by_cases hsign : c = 43 ∨ c = 45
    · by_cases hrest : rest = []
      · rw [show parseI64 (c :: rest) = none by simp [parseI64, hsign, hrest]] at h
        simp at h
      · by_cases hall : rest.all isDigitByte = true
        · by_cases hc45 : c = 45
          · by_cases hle : natOfDigits rest ≤ 2 ^ 63
            · rw [show parseI64 (c :: rest) = some (-(natOfDigits rest : Int)) by
                simp [parseI64, hsign, hrest, hall, hc45] <;> omega] at h
              injection h with h1
              omega
            · rw [show parseI64 (c :: rest) = none by
                simp [parseI64, hsign, hrest, hall, hc45] <;> omega] at h
              simp at h
          · have hc43 : c = 43 := hsign.resolve_right hc45
            by_cases hle : natOfDigits rest ≤ 2 ^ 63 - 1
            · rw [show parseI64 (c :: rest) = some ((natOfDigits rest : Int)) by
                simp [parseI64, hsign, hrest, hall, hc43] <;> omega] at h
              injection h with h1
              omega
            · rw [show parseI64 (c :: rest) = none by
                simp [parseI64, hsign, hrest, hall, hc43] <;> omega] at h
              simp at h
        · rw [show parseI64 (c :: rest) = none by
            simp [parseI64, hsign, hrest, hall]] at h
          simp at h
    · by_cases hall : (c :: rest).all isDigitByte = true
      · have hc45 : ¬(c = 45) := fun hc => hsign (Or.inr hc)
        have hc43 : ¬(c = 43) := fun hc => hsign (Or.inl hc)
        by_cases hle : natOfDigits (c :: rest) ≤ 2 ^ 63 - 1
        · rw [show parseI64 (c :: rest) = some ((natOfDigits (c :: rest) : Int)) by
            simp [parseI64, hall, hc45, hc43] <;> omega] at h
          injection h with h1
          omega
        · rw [show parseI64 (c :: rest) = none by
            simp [parseI64, hall, hc45, hc43] <;> omega] at h
          simp at h
      · rw [show parseI64 (c :: rest) = none by simp [parseI64, hsign, hall]] at h
        simp at h

theorem all_isDigit {l : List Nat} (h : ∀ b ∈ l, 48 ≤ b ∧ b ≤ 57) :
    l.all isDigitByte = true :=
  List.all_eq_true.mpr fun b hb => by
    simp only [isDigitByte, Bool.and_eq_true, decide_eq_true_eq]
    exact (h b hb)

theorem parseI64_eval (sign digits : List Nat)
    (hsign : sign = [] ∨ sign = [43] ∨ sign = [45])
    (hne : digits ≠ []) (hdig : ∀ b ∈ digits, 48 ≤ b ∧ b ≤ 57) :
    parseI64 (sign ++ digits) =
      if sign = [45] then
        (if natOfDigits digits ≤ 2 ^ 63 then some (-(natOfDigits digits : Int)) else none)
      else
        (if natOfDigits digits ≤ 2 ^ 63 - 1 then some ((natOfDigits digits : Int)) else none) := by
  have hall := all_isDigit hdig
  rcases hsign with rfl | rfl | rfl
  · match digits, hne with
    | d :: drest, _ =>
      have hd := hdig d (by simp)
      simp only [List.nil_append, parseI64]
      rw [if_neg (by omega : ¬(d = 43 ∨ d = 45))]
      rw [if_neg (by simp : ¬(d :: drest = []))]
      rw [if_pos hall]
      rw [if_neg (by omega : ¬(d = 45))]
      rw [if_neg (by simp : ¬([] : List Nat) = [45])]
  · simp only [List.cons_append, List.nil_append]
    simp [parseI64, hne, hall]
  · simp only [List.cons_append, List.nil_append]
    simp [parseI64, hne, hall]

theorem utf8Valid_of_ascii : ∀ {l : List Nat}, (∀ b ∈ l, b < 128) → utf8Valid l = true := by
  intro l
  induction l with
  | nil => intro _; rfl
  | cons b r ih =>
    intro h
    rw [utf8Valid.eq_def]
    simp only [h b (by simp), if_true, if_pos]
    exact ih fun x hx => h x (by simp [hx])

theorem position_isSome_of_mem {p : Nat → Bool} {l : List Nat} {a : Nat}
    (ha : a ∈ l) (hp : p a = true) : ∃ k, position p l = some k := by
  induction l with
  | nil => simp at ha
  | cons b r ih =>
    by_cases hb : p b
    · exact ⟨0, by simp [position, hb]⟩
    · rcases List.mem_cons.mp ha with rfl | ha2
      · exact absurd hp hb
      · obtain ⟨k, hk⟩ := ih ha2
        exact ⟨k + 1, by simp [position, hb, hk]⟩

/-! ## Elimination for the top-level entry point -/

theorem parse_ok_elim {c : List Nat} {nd : Node} (h : parse c = .ok nd) :
    ∃ v, nd = .mk v c ∧ parse_value c = .ok (v, c.length) := by
  rcases hv : parse_value c with _ | e | ⟨v, n⟩
  · simp only [parse, hv] at h
    exact PResult.noConfusion h
  · simp only [parse, hv] at h
    exact PResult.noConfusion h
  · simp only [parse, hv] at h
    by_cases hn : n = c.length
    · rw [if_pos hn] at h
      injection h with h1
      subst hn
      exact ⟨v, h1.symm, rfl⟩
    · rw [if_neg hn] at h
      simp at h

theorem parse_listA_ok_elim {pv : List Nat → Option (PResult ParseError (Value × Nat))}
    {g : Nat} {c : List Nat} {nds : List Node} {n : Nat}
    (h : parse_listA pv g c = some (some (.ok (nds, n)))) :
    ∃ b rest m, c = b :: rest ∧ b = 108 ∧
      loopFAux pv g rest = some (.ok (nds, m)) ∧ n = m + 1 := by
  match c with
  | [] => simp [parse_listA] at h
  | b :: rest =>
    by_cases hl : b ≠ 108
    · simp only [parse_listA] at h
      rw [if_pos hl] at h
      simp at h
    · simp only [parse_listA] at h
      rw [if_neg hl] at h
      rcases hloop : loopFAux pv g rest with _ | r
      · rw [hloop] at h; simp at h
      · rcases r with _ | e | ⟨nds', m⟩
        · simp only [hloop] at h; simp at h
        · simp only [hloop] at h; simp at h
        · simp only [hloop] at h
          simp at h
          exact ⟨b, rest, m, rfl, by omega, by rw [← h.1]; exact hloop, h.2.symm⟩

/-! ## Last write wins in the dictionary accumulator (claim C6) -/

theorem dictLookup_dictInsert_self (d : List Entry) (k : List Nat) (nd : Node) :
    dictLookup (dictInsert d k nd) k = some nd := by
  induction d with
  | nil => simp [dictInsert, dictLookup, Entry.key, Entry.node]
  | cons e rest ih =>
    obtain ⟨ek, en⟩ := e
    by_cases hk : ek = k
    · rw [show dictInsert (Entry.mk ek en :: rest) k nd = .mk k nd :: rest by
        simp [dictInsert, Entry.key, hk]]
      simp [dictLookup, Entry.key, Entry.node]
    · rw [show dictInsert (Entry.mk ek en :: rest) k nd
          = Entry.mk ek en :: dictInsert rest k nd by
        simp [dictInsert, Entry.key, hk]]
      simp only [dictLookup, Entry.key]
      rw [if_neg hk]
      exact ih

theorem dictLookup_dictInsert_ne (d : List Entry) (k k' : List Nat) (nd : Node)
    (h : k' ≠ k) : dictLookup (dictInsert d k nd) k' = dictLookup d k' := by
  induction d with
  | nil =>
    simp only [dictInsert, dictLookup, Entry.key]
    rw [if_neg (show ¬(k = k') from fun hh => h hh.symm)]
  | cons e rest ih =>
    obtain ⟨ek, en⟩ := e
    by_cases hk : ek = k
    · rw [show dictInsert (Entry.mk ek en :: rest) k nd = .mk k nd :: rest by
        simp [dictInsert, Entry.key, hk]]
      simp only [dictLookup, Entry.key]
      rw [if_neg (show ¬(k = k') from fun hh => h hh.symm),
        if_neg (show ¬(ek = k') from by rw [hk]; exact fun hh => h hh.symm)]
    · rw [show dictInsert (Entry.mk ek en :: rest) k nd
          = Entry.mk ek en :: dictInsert rest k nd by
        simp [dictInsert, Entry.key, hk]]
      simp only [dictLookup, Entry.key]
      by_cases he : ek = k'
      · rw [if_pos he, if_pos he]
      · rw [if_neg he, if_neg he, ih]

/-- Folding the overwriting insert over a pair list binds every key to the
node of the *last* pair carrying it (and leaves untouched keys alone). -/
theorem dictLookup_foldl_insert (pairs : List (List Nat × Node)) :
    ∀ (dict : List Entry) (k : List Nat),
      dictLookup (pairs.foldl (fun acc p => dictInsert acc p.1 p.2) dict) k
        = match lastAssoc k pairs with
          | some nd => some nd
          | none => dictLookup dict k := by
  induction pairs with
  | nil => intro dict k; simp [lastAssoc]
  | cons p rest ih =>
    intro dict k
    rw [List.foldl_cons, ih]
    rcases hl : lastAssoc k rest with _ | nd
    · simp only [lastAssoc, hl]
      by_cases hpk : p.1 = k
      · rw [if_pos hpk]
        subst hpk
        exact dictLookup_dictInsert_self dict p.1 p.2
      · rw [if_neg hpk]
        exact dictLookup_dictInsert_ne dict p.1 k p.2 (fun hh => hpk hh.symm)
    · simp only [lastAssoc, hl]

/-- The dictionary loop's result is the left fold of the overwriting
insert over the `(key, node)` pairs it decodes, in decode order. -/
theorem loopDAux_pairs {pv : List Nat → Option (PResult ParseError (Value × Nat))} :
    ∀ g dict s d m, loopDAux pv g dict s = some (.ok (d, m)) →
      ∃ pairs, loopDPairs pv g s = some (.ok (pairs, m)) ∧
        d = pairs.foldl (fun acc p => dictInsert acc p.1 p.2) dict := by
  intro g
  induction g with
  | zero => intro dict s d m h; simp [loopDAux] at h
  | succ g ih =>
    intro dict s d m h
    rcases loopDAux_ok_elim h with ⟨b, srest, rfl, hb, rfl, rfl⟩ |
      ⟨b, srest, key, kn, v, vn, m', rfl, hb, hkey, hutf, hpv, hrec, rfl⟩
    · refine ⟨[], ?_, rfl⟩
      simp only [loopDPairs]
      rw [if_pos hb]
    · obtain ⟨ps, hps, hd⟩ := ih _ _ _ _ hrec
      refine ⟨(key, .mk v (((b :: srest).drop kn).take vn)) :: ps, ?_, ?_⟩
      · simp only [loopDPairs]
        rw [if_neg hb]
        simp only [hkey]
        rw [if_pos hutf]
        simp only [hpv, hps]
      · rw [List.foldl_cons]
        exact hd

/-! ## The claims -/

/-- C1: the spec requires the byte-string decoder to treat every leading
ASCII digit `0`–`9` (inclusive) as applicable, with `"0:"` decoding to an
empty byte string of span 2.  The source's gate
`first_char <= b'0' || first_char >= b'9'` excludes `'0'` and `'9'`
themselves, so the code rejects `"0:"` (and any length starting with `9`)
as not-applicable and `parse "0:"` fails with `InvalidPrefix` instead of
succeeding; `'1'`–`'8'` are accepted.  This evaluates the embedded code at
the divergence. -/
theorem claim_C1_code_divergence :
    parse [48, 58] = .error .InvalidPrefix ∧
    parse_byte_string [48, 58] = none ∧
    parse_byte_string [57, 58, 97, 97, 97, 97, 97, 97, 97, 97, 97] = none ∧
    parse_byte_string [49, 58, 97] = some (.ok ([97], 3)) :=
  ⟨rfl, rfl, rfl, rfl⟩

/-- C2 (counterexample): `"1:a"` is a valid encoding, `"1"` is a strict
non-empty prefix of it, and `parse "1"` fails with `InvalidPrefix` — not
`UnexpectedEndOfData` as the claim states. -/
theorem claim_C2_counterexample :
    parse [49, 58, 97] = .ok (.mk (.ByteString [97]) [49, 58, 97]) ∧
    [49] <+: [49, 58, 97] ∧ ([49] : List Nat) ≠ [] ∧ ([49] : List Nat) ≠ [49, 58, 97] ∧
    parse [49] = .error .InvalidPrefix ∧
    ParseError.InvalidPrefix ≠ ParseError.UnexpectedEndOfData :=
  ⟨rfl, ⟨[58, 97], rfl⟩, by decide, by decide, rfl, by decide⟩

/-- C2 (amended): every strict, non-empty prefix of a valid encoding
fails with some `ParseError` — it never succeeds, and it never reaches
the byte-string overflow panic either — but the error is not always
`UnexpectedEndOfData`: truncating a byte-string before its `:` yields
`InvalidPrefix` (or `NonByteStringDictKey` at a dictionary key). -/
theorem claim_C2_amended :
    ∀ (E : List Nat) (nd : Node), parse E = .ok nd →
      ∀ P, P <+: E → P ≠ [] → P ≠ E → ∃ e, parse P = .error e := by
  intro E nd hE P hpre hne hneq
  rcases hP : parse P with _ | e | nd'
  · exfalso
    obtain ⟨vE, rfl, hvE⟩ := parse_ok_elim hE
    have hvP : parse_value P = .panic := by
      rcases hv : parse_value P with _ | e | ⟨v, n⟩
      · rfl
      · simp only [parse, hv] at hP
        exact PResult.noConfusion hP
      · simp only [parse, hv] at hP
        by_cases hn : n = P.length
        · rw [if_pos hn] at hP
          exact PResult.noConfusion hP
        · rw [if_neg hn] at hP
          exact PResult.noConfusion hP
    have hPf : parse_valueF (2 * P.length + 1) P = some .panic := by
      rcases Option.isSome_iff_exists.mp (parse_valueF_suff (2 * P.length + 1) P le_rfl)
        with ⟨r, hr⟩
      have h5 := parse_valueF_eq_parse_value hr
      rw [hvP] at h5
      rw [← h5] at hr
      exact hr
    have hPE : parse_valueF (2 * E.length + 1) P = some .panic :=
      parse_valueF_mono _ _ _ _ (by have := hpre.length_le; omega) hPf
    exact parse_valueF_no_panic _ _ _ _ (parse_value_ok_fueled hvE) P hpre hPE
  · exact ⟨e, rfl⟩
  · exfalso
    obtain ⟨vE, rfl, hvE⟩ := parse_ok_elim hE
    obtain ⟨vP, rfl, hvP⟩ := parse_ok_elim hP
    have hext := parse_value_take_eq hvP E (by rwa [List.take_length])
    rw [hvE] at hext
    injection hext with h1
    injection h1 with h2 h3
    exact hneq (hpre.eq_of_length h3.symm)

theorem claim_C2_witness : ∃ e, parse [49, 58] = .error e :=
  claim_C2_amended [49, 58, 97] (.mk (.ByteString [97]) [49, 58, 97]) rfl
    [49, 58] ⟨[97], rfl⟩ (by decide) (by decide)

/-- C3 (counterexample): on `"1"` the digit gate matches but there is no
`:` anywhere; the code returns `none` (not-applicable), not the
`UnexpectedEndOfData` hard failure the claim states. -/
theorem claim_C3_counterexample :
    parse_byte_string [49] = none ∧
    (none : Option (PResult ParseError (List Nat × Nat)))
      ≠ some (.error .UnexpectedEndOfData) :=
  ⟨rfl, by simp⟩

/-- C3 (amended): once the (buggy-range) digit gate has matched, the
absence of a `:` anywhere in the slice makes `parse_byte_string` report
not-applicable (`none`) — propagated by the `?` operator — so the
dispatcher falls through every production and the parse fails with
`InvalidPrefix`, not `UnexpectedEndOfData`. -/
theorem claim_C3_amended :
    ∀ (b : Nat) (rest : List Nat), 48 < b → b < 57 →
      (∀ x ∈ b :: rest, x ≠ 58) →
      parse_byte_string (b :: rest) = none ∧
      parse (b :: rest) = .error .InvalidPrefix := by
  intro b rest h1 h2 hno
  have hposn : position (fun x => x == 58) (b :: rest) = none :=
    position_eq_none fun x hx => by
      simp only [beq_eq_false_iff_ne]
      exact hno x hx
  have hbs : parse_byte_string (b :: rest) = none := by
    simp only [parse_byte_string, hposn]
    rw [if_neg (by omega)]
  refine ⟨hbs, ?_⟩
  have hF := @parse_valueF_no_production (2 * (b :: rest).length) b rest
    (parse_interger_not_i (show b ≠ 105 by omega)) hbs (by omega) (by omega)
  have hval : parse_value (b :: rest) = .error .InvalidPrefix :=
    parse_valueF_eq_parse_value hF
  simp only [parse, hval]

theorem claim_C3_witness :
    parse_byte_string [49] = none ∧ parse [49] = .error .InvalidPrefix :=
  claim_C3_amended 49 [] (by decide) (by decide) (by decide)

/-- C4 (counterexample): on `"i\xffe"` the bytes between `i` and the
first `e` are not valid text, and the code fails with `NonUtf8Integer`
— not `InvalidInteger` as the claim states for non-UTF-8 bytes. -/
theorem claim_C4_counterexample :
    parse_interger [105, 255, 101] = some (.error .NonUtf8Integer) ∧
    ParseError.NonUtf8Integer ≠ ParseError.InvalidInteger :=
  ⟨rfl, by decide⟩

/-- C4 (amended): for every input beginning with `i` that contains an
`e`, the decoder is applicable; the bytes between `i` and the first `e`
yield `NonUtf8Integer` when they are not valid text, and `InvalidInteger`
when they are valid text but fail to parse as a signed 64-bit integer
(empty literal, malformed digits, magnitude overflow). -/
theorem claim_C4_amended :
    ∀ (rest : List Nat), 101 ∈ 105 :: rest →
      ∃ e_idx, position (fun x => x == 101) (105 :: rest) = some e_idx ∧
        (utf8Valid (((105 :: rest).take e_idx).drop 1) = false →
          parse_interger (105 :: rest) = some (.error .NonUtf8Integer)) ∧
        (utf8Valid (((105 :: rest).take e_idx).drop 1) = true →
          parseI64 (((105 :: rest).take e_idx).drop 1) = none →
          parse_interger (105 :: rest) = some (.error .InvalidInteger)) := by
  intro rest hmem
  obtain ⟨k, hk⟩ := @position_isSome_of_mem (fun x => x == 101) (105 :: rest) 101
    hmem (by decide)
  refine ⟨k, hk, ?_, ?_⟩
  · intro hval
    simp only [parse_interger, hk]
    rw [if_neg (by decide : ¬((105 : Nat) ≠ 105))]
    rw [if_neg (by rw [hval]; decide)]
  · intro hval hpi
    simp only [parse_interger, hk]
    rw [if_neg (by decide : ¬((105 : Nat) ≠ 105))]
    rw [if_pos hval, hpi]

theorem claim_C4_witness :
    ∃ e_idx, position (fun x => x == 101) (105 :: [255, 101]) = some e_idx ∧
      (utf8Valid (((105 :: [255, 101]).take e_idx).drop 1) = false →
        parse_interger (105 :: [255, 101]) = some (.error .NonUtf8Integer)) ∧
      (utf8Valid (((105 :: [255, 101]).take e_idx).drop 1) = true →
        parseI64 (((105 :: [255, 101]).take e_idx).drop 1) = none →
        parse_interger (105 :: [255, 101]) = some (.error .InvalidInteger)) :=
  claim_C4_amended [255, 101] (by decide)

/-- C5: `parse` decodes exactly one value from offset 0; when the
consumed length is strictly less than the buffer's length it fails with
`DataAfterBencode`, and otherwise it returns the node whose span
(`unparsed`) is the entire input buffer. -/
theorem claim_C5 :
    ∀ (c : List Nat) (v : Value) (n : Nat), parse_value c = .ok (v, n) →
      ((n < c.length → parse c = .error .DataAfterBencode) ∧
       (¬n < c.length → parse c = .ok (.mk v c))) := by
  intro c v n h
  have hb := parse_value_bounds h
  constructor
  · intro hlt
    simp only [parse, h]
    rw [if_neg (by omega)]
  · intro hge
    simp only [parse, h]
    rw [if_pos (by omega)]

theorem claim_C5_witness :
    (3 < [105, 49, 101, 101].length →
      parse [105, 49, 101, 101] = .error .DataAfterBencode) ∧
    (¬3 < [105, 49, 101, 101].length →
      parse [105, 49, 101, 101] = .ok (.mk (.Integer 1) [105, 49, 101, 101])) :=
  claim_C5 [105, 49, 101, 101] (.Integer 1) 3 rfl

/-- C6: later occurrences of a repeated dictionary key overwrite earlier
ones, universally.  First conjunct: every successful run of the
`parse_dictionary` loop returns exactly the left fold of the overwriting
`HashMap::insert` (`dictInsert`) over the `(key, node)` pairs it decodes,
in decode order.  Second conjunct: in such a fold, every key is bound to
the node of the *last* decoded pair carrying it (`lastAssoc`), keys never
decoded keeping their prior binding — so with the loop's empty initial
map, a key occurring several times ends bound to its last occurrence.
Third conjunct: on `"d3:cow3:moo3:cow3:baae"` the repeated key `cow` is
bound to the later value `"baa"`, the single resulting entry. -/
theorem claim_C6_duplicate_key :
    (∀ (pv : List Nat → Option (PResult ParseError (Value × Nat)))
       (g : Nat) (dict : List Entry) (s : List Nat) (d : List Entry) (m : Nat),
      loopDAux pv g dict s = some (.ok (d, m)) →
      ∃ pairs, loopDPairs pv g s = some (.ok (pairs, m)) ∧
        d = pairs.foldl (fun acc p => dictInsert acc p.1 p.2) dict) ∧
    (∀ (pairs : List (List Nat × Node)) (dict : List Entry) (k : List Nat),
      dictLookup (pairs.foldl (fun acc p => dictInsert acc p.1 p.2) dict) k
        = match lastAssoc k pairs with
          | some nd => some nd
          | none => dictLookup dict k) ∧
    parse [100, 51, 58, 99, 111, 119, 51, 58, 109, 111, 111,
           51, 58, 99, 111, 119, 51, 58, 98, 97, 97, 101]
      = .ok (.mk
          (.Dictionary [.mk [99, 111, 119]
            (.mk (.ByteString [98, 97, 97]) [51, 58, 98, 97, 97])])
          [100, 51, 58, 99, 111, 119, 51, 58, 109, 111, 111,
           51, 58, 99, 111, 119, 51, 58, 98, 97, 97, 101]) :=
  ⟨fun pv g dict s d m h => loopDAux_pairs g dict s d m h,
   fun pairs dict k => dictLookup_foldl_insert pairs dict k,
   rfl⟩

theorem claim_C6_witness :
    ∃ pairs,
      loopDPairs (parse_valueF 45) 45
          [51, 58, 99, 111, 119, 51, 58, 109, 111, 111,
           51, 58, 99, 111, 119, 51, 58, 98, 97, 97, 101]
        = some (.ok (pairs, 21)) ∧
      [Entry.mk [99, 111, 119] (.mk (.ByteString [98, 97, 97]) [51, 58, 98, 97, 97])]
        = pairs.foldl (fun acc p => dictInsert acc p.1 p.2) [] :=
  claim_C6_duplicate_key.1 (parse_valueF 45) 45 []
    [51, 58, 99, 111, 119, 51, 58, 109, 111, 111,
     51, 58, 99, 111, 119, 51, 58, 98, 97, 97, 101]
    [Entry.mk [99, 111, 119] (.mk (.ByteString [98, 97, 97]) [51, 58, 98, 97, 97])]
    21 rfl

/-- C7: a successful `parse` returns a node whose span is the whole
input; `NodeSpanOK` states recursively that every node of the tree
reparses from its own span to exactly its value (span length = bytes
consumed; re-decoding the span reproduces the value), and via
`ChildrenOK` that each child's span is an infix of its parent's interior
(strictly between the parent's framing bytes). -/
theorem claim_C7_spans :
    ∀ (c : List Nat) (nd : Node), parse c = .ok nd →
      nd.unparsed = c ∧ NodeSpanOK nd := by
  intro c nd h
  obtain ⟨v, rfl, hv⟩ := parse_ok_elim h
  refine ⟨rfl, ?_⟩
  simp only [NodeSpanOK]
  refine ⟨hv, ?_⟩
  have h2 := parse_valueF_spans _ _ _ _ (parse_value_ok_fueled hv)
  rwa [List.take_length] at h2

theorem claim_C7_witness :
    (Node.mk (Value.List []) [108, 101]).unparsed = [108, 101] ∧
    NodeSpanOK (.mk (.List []) [108, 101]) :=
  claim_C7_spans [108, 101] (.mk (.List []) [108, 101]) rfl

/-- C8: the integer decoder maps `"i0e"` to `0` consuming 3 bytes and
`"i-5e"` to `-5` consuming 4 bytes; every integer it ever returns lies in
the signed 64-bit range (it never wraps); and every well-formed literal
whose magnitude exceeds that range (above `i64::MAX`, or below
`i64::MIN` for a negative literal) fails with `InvalidInteger`. -/
theorem claim_C8_integer :
    parse_interger [105, 48, 101] = some (.ok (0, 3)) ∧
    parse_interger [105, 45, 53, 101] = some (.ok (-5, 4)) ∧
    (∀ (c : List Nat) (i : Int) (n : Nat), parse_interger c = some (.ok (i, n)) →
      -(2 ^ 63) ≤ i ∧ i ≤ 2 ^ 63 - 1) ∧
    (∀ (sign digits rest : List Nat),
      (sign = [] ∨ sign = [43] ∨ sign = [45]) → digits ≠ [] →
      (∀ b ∈ digits, 48 ≤ b ∧ b ≤ 57) →
      (sign = [45] → 2 ^ 63 < natOfDigits digits) →
      (sign ≠ [45] → 2 ^ 63 - 1 < natOfDigits digits) →
      parse_interger (105 :: (sign ++ digits) ++ 101 :: rest)
        = some (.error .InvalidInteger)) := by
  refine ⟨rfl, rfl, ?_, ?_⟩
  · intro c i n h
    obtain ⟨b, brest, e_idx, rfl, hb, hpos, hval, hpi, rfl⟩ := parse_interger_elim h
    exact parseI64_range hpi
  · intro sign digits rest hsign hne hdig hneg hpos
    have hascii : ∀ b ∈ sign ++ digits, b < 128 := by
      intro x hx
      rcases List.mem_append.mp hx with hx1 | hx2
      · rcases hsign with rfl | rfl | rfl
        · simp at hx1
        · simp at hx1; omega
        · simp at hx1; omega
      · have := hdig x hx2; omega
    have hlnoe : ∀ x ∈ 105 :: (sign ++ digits), (x == 101) = false := by
      intro x hx
      rcases List.mem_cons.mp hx with rfl | hx2
      · decide
      · simp only [beq_eq_false_iff_ne]
        rcases List.mem_append.mp hx2 with hx1 | hx3
        · rcases hsign with rfl | rfl | rfl
          · simp at hx1
          · simp at hx1; omega
          · simp at hx1; omega
        · have := hdig x hx3; omega
    have hpos1 := @position_append (fun x => x == 101)
      (105 :: (sign ++ digits)) rest 101 hlnoe (by simp)
    rw [List.cons_append, List.length_cons] at hpos1
    rw [List.cons_append]
    simp only [parse_interger, hpos1]
    rw [if_neg (by decide : ¬((105 : Nat) ≠ 105))]
    have htake : (105 :: ((sign ++ digits) ++ 101 :: rest)).take
        ((sign ++ digits).length + 1) = 105 :: (sign ++ digits) := by
      rw [List.take_succ_cons, List.take_left]
    rw [htake]
    simp only [List.drop_succ_cons, List.drop_zero]
    rw [if_pos (utf8Valid_of_ascii hascii)]
    rw [parseI64_eval sign digits hsign hne hdig]
    by_cases hs45 : sign = [45]
    · rw [if_pos hs45, if_neg (by have := hneg hs45; omega)]
    · rw [if_neg hs45, if_neg (by have := hpos hs45; omega)]

theorem claim_C8_witness :
    (-(2 ^ 63) ≤ (0 : Int) ∧ (0 : Int) ≤ 2 ^ 63 - 1) ∧
    parse_interger (105 :: ([] ++ List.replicate 20 57) ++ 101 :: [])
      = some (.error .InvalidInteger) :=
  ⟨claim_C8_integer.2.2.1 [105, 48, 101] 0 3 rfl,
   claim_C8_integer.2.2.2 [] (List.replicate 20 57) [] (Or.inl rfl) (by decide)
     (by decide) (fun h => absurd h (by decide)) (fun _ => by decide)⟩

/-- C9 (counterexample): the input `"18446744073709551615:"` (21 bytes)
makes the source panic instead of returning a value or a `ParseError`:
the digit gate accepts `'1'`, the `:` is at index 20, the literal parses
as `usize::MAX = 2^64 - 1`, and `value_end_idx = 21 + (2^64 - 1)`
overflows `usize` — a debug build panics at the addition, a release build
wraps to `20 < 21` and panics slicing `content[21..20]`.  The panic
outcome is neither an `ok` node nor an `error`. -/
theorem claim_C9_counterexample :
    parse [49, 56, 52, 52, 54, 55, 52, 52, 48, 55,
           51, 55, 48, 57, 53, 53, 49, 54, 49, 53, 58] = .panic ∧
    (∀ nd : Node, (PResult.panic : PResult ParseError Node) ≠ .ok nd) ∧
    (∀ e : ParseError, (PResult.panic : PResult ParseError Node) ≠ .error e) :=
  ⟨rfl, fun nd h => PResult.noConfusion h, fun e h => PResult.noConfusion h⟩

/-- C9 (amended): the decode terminates on every finite input — any fuel
of at least `2 * length + 1` makes the fueled dispatcher return a
definitive outcome, exactly `parse_value`; the fuel is a modelling
artifact, the recursion always makes progress — but the outcome is not
always a value or a `ParseError`: on inputs whose byte-string length
arithmetic overflows `usize` it is the decoder's panic (see the C9
counterexample above). -/
theorem claim_C9_termination :
    ∀ (c : List Nat) (f : Nat), 2 * c.length + 1 ≤ f →
      ∃ r, parse_valueF f c = some r ∧ parse_value c = r := by
  intro c f hf
  rcases Option.isSome_iff_exists.mp (parse_valueF_suff f c hf) with ⟨r, hr⟩
  exact ⟨r, hr, parse_valueF_eq_parse_value hr⟩

theorem claim_C9_witness :
    ∃ r, parse_valueF 7 [108, 101] = some r ∧ parse_value [108, 101] = r :=
  claim_C9_termination [108, 101] 7 (by decide)

/-- C10: whenever a per-production decoder or the dispatcher succeeds on
a non-empty slice, the consumed length is at least 1 and at most the
slice's length. -/
theorem claim_C10_bounds :
    (∀ (c : List Nat) (i : Int) (n : Nat),
      parse_interger c = some (.ok (i, n)) → c ≠ [] → 1 ≤ n ∧ n ≤ c.length) ∧
    (∀ (c bs : List Nat) (n : Nat),
      parse_byte_string c = some (.ok (bs, n)) → c ≠ [] → 1 ≤ n ∧ n ≤ c.length) ∧
    (∀ (f : Nat) (c : List Nat) (v : Value) (n : Nat),
      parse_valueF f c = some (.ok (v, n)) → c ≠ [] → 1 ≤ n ∧ n ≤ c.length) ∧
    (∀ (f g : Nat) (c : List Nat) (nds : List Node) (n : Nat),
      parse_listA (parse_valueF f) g c = some (some (.ok (nds, n))) → c ≠ [] →
        1 ≤ n ∧ n ≤ c.length) := by
  refine ⟨?_, ?_, ?_, ?_⟩
  · intro c i n h _
    exact parse_interger_bounds h
  · intro c bs n h _
    exact parse_byte_string_bounds h
  · intro f c v n h _
    exact parse_valueF_bounds f c v n h
  · intro f g c nds n h _
    obtain ⟨b, rest, m, rfl, hb, hloop, rfl⟩ := parse_listA_ok_elim h
    have := loopFAux_bounds (parse_valueF_bounds f) _ _ _ _ hloop
    simp only [List.length_cons]
    omega

theorem claim_C10_witness :
    (1 ≤ 3 ∧ 3 ≤ [105, 49, 101].length) ∧
    (1 ≤ 3 ∧ 3 ≤ [49, 58, 97].length) ∧
    (1 ≤ 2 ∧ 2 ≤ [108, 101].length) ∧
    (1 ≤ 2 ∧ 2 ≤ [108, 101].length) :=
  ⟨claim_C10_bounds.1 [105, 49, 101] 1 3 rfl (by decide),
   claim_C10_bounds.2.1 [49, 58, 97] [97] 3 rfl (by decide),
   claim_C10_bounds.2.2.1 5 [108, 101] (.List []) 2 rfl (by decide),
   claim_C10_bounds.2.2.2 5 5 [108, 101] [] 2 rfl (by decide)⟩
